import Mathlib

/-!
# ICMP echo codec and probe loop of `ping.cpp`

A shallow embedding of `src/ping.cpp`: the `ICMPPacket` wire structure, the
`ICMP` class (`calculateChecksum`, constructor, `updateChecksum`, `setSequence`,
accessors, `matches`) and the probe loop of `main` with its counters.

Conventions of the embedding.

* An octet is a `Fin 256`, a `uint16_t` is a `Fin 65536`; a buffer is a list of octets.
* The host byte order is a parameter `be : Bool` (`true` for a big-endian host), on which
  `htons`, `ntohs` and the memory image of a `uint16_t` depend.
* `uint32_t` arithmetic is arithmetic on `Nat` reduced `% 2 ^ 32`, `int` arithmetic where
  it can overflow is arithmetic on `Int` wrapped to 32 bits.
* A `double` is the rational it holds; `min` and `max` select one of their arguments, and
  an addition or a division of `double`s is the exact result rounded by `roundDouble`.
* What the operating system does during a probe (`getpid`, `sendto`, `recvfrom`, the
  clock) is an explicit input.
-/

namespace Ping

/-! ## Machine words -/

/-- An octet (`uint8_t`). -/
abbrev Byte := Fin 256

/-- A `uint16_t` value. -/
abbrev U16 := Fin 65536

/-- Conversion to `uint8_t`, keeping the low eight bits. -/
def toByte (n : Nat) : Byte := ⟨n % 256, Nat.mod_lt n (by decide)⟩

/-- Conversion to `uint16_t` (`static_cast<uint16_t>`), keeping the low sixteen bits. -/
def toU16 (n : Nat) : U16 := ⟨n % 65536, Nat.mod_lt n (by decide)⟩

/-- Exchange of the two octets of a 16-bit value. -/
def bswap16 (v : U16) : U16 := toU16 (v.val % 256 * 256 + v.val / 256)

/-- The library function `htons`: the identity on a big-endian host, a byte swap otherwise. -/
def htons (be : Bool) (v : U16) : U16 := if be then v else bswap16 v

/-- The library function `ntohs`: the identity on a big-endian host, a byte swap otherwise. -/
def ntohs (be : Bool) (v : U16) : U16 := if be then v else bswap16 v

/-- The `uint16_t` read from two consecutive octets of memory (lower address first). -/
def loadU16 (be : Bool) (b0 b1 : Byte) : U16 :=
  if be then toU16 (b0.val * 256 + b1.val) else toU16 (b1.val * 256 + b0.val)

/-- The two octets a `uint16_t` occupies in memory (lower address first). -/
def storeU16 (be : Bool) (v : U16) : List Byte :=
  if be then [toByte (v.val / 256), toByte v.val] else [toByte v.val, toByte (v.val / 256)]

/-- The octet at index `i` of a buffer. -/
def byteAt (data : List Byte) (i : Nat) : Byte := data.getD i 0

/-- The element `words[i]` of a buffer viewed as an array of `uint16_t`. -/
def wordAt (be : Bool) (data : List Byte) (i : Nat) : U16 :=
  loadU16 be (byteAt data (2 * i)) (byteAt data (2 * i + 1))

/-! ## `ICMP::calculateChecksum` -/

/-- The function `calculateChecksum(data, len)` of `ping.cpp`, lines 40-53, with
`len = data.length`; `sum` is a `uint32_t`. -/
def calculateChecksum (be : Bool) (data : List Byte) : U16 :=
  let len := data.length
  let count := len / 2
  let sum := (List.range count).foldl
    (fun sum i => (sum + (ntohs be (wordAt be data i)).val) % 2 ^ 32) 0
  let sum := if len &&& 1 ≠ 0 then (sum + (byteAt data (len - 1)).val) % 2 ^ 32 else sum
  let sum := ((sum >>> 16) + (sum &&& 0xFFFF)) % 2 ^ 32
  let sum := (sum + (sum >>> 16)) % 2 ^ 32
  toU16 (2 ^ 32 - 1 - sum)


/-- The checksum field of a message image: `c` written in network byte order into
octets 2 and 3. -/
def setChecksumField (data : List Byte) (c : U16) : List Byte :=
  (data.set 2 (toByte (c.val / 256))).set 3 (toByte c.val)

/-! ## Arithmetic of the checksum -/

/-- The 16-bit word `i` of a buffer in network byte order. -/
def netWord (data : List Byte) (i : Nat) : Nat :=
  (byteAt data (2 * i)).val * 256 + (byteAt data (2 * i + 1)).val

/-- The exact sum of the first `k` network-order words of a buffer. -/
def wordSum (data : List Byte) : Nat → Nat
  | 0 => 0
  | k + 1 => wordSum data k + netWord data k

/-- The exact value `calculateChecksum` accumulates before folding: all words, and the
last octet (as it stands) when the length is odd. -/
def rawSum (data : List Byte) : Nat :=
  wordSum data (data.length / 2) +
    (if data.length % 2 = 1 then (byteAt data (data.length - 1)).val else 0)

/-- The two folding steps and the complement, on a 32-bit accumulator. -/
def finish (s : Nat) : Nat :=
  65535 - (s / 65536 + s % 65536 + (s / 65536 + s % 65536) / 65536) % 65536

/-! ## RFC 1071 -/

/-- The 16-bit words of a buffer read in network byte order; a trailing odd octet is
padded on the right with a zero octet to form the last word (RFC 1071). -/
def rfcWords : List Byte → List Nat
  | b0 :: b1 :: rest => (b0.val * 256 + b1.val) :: rfcWords rest
  | [b0] => [b0.val * 256]
  | [] => []

/-- One's-complement addition of two 16-bit values: the carry out of bit 15 is added
back in (end-around carry). -/
def onesAdd (a b : Nat) : Nat := if a + b < 65536 then a + b else a + b - 65535

/-- The array `uint8_t payload[56]`. -/
abbrev Payload := { l : List Byte // l.length = 56 }

/-- The structure `ICMPPacket` of `ping.cpp`, lines 15-22. The `uint16_t` fields hold the
values as the program stores them, that is in the host's representation of what lies in
memory. -/
structure ICMPPacket where
  type : Byte
  code : Byte
  checksum : U16
  id : U16
  sequence : U16
  payload : Payload
deriving DecidableEq

/-- The memory image of an `ICMPPacket`: `sizeof(ICMPPacket)` is 64 and there is no padding. -/
def ICMPPacket.bytes (be : Bool) (p : ICMPPacket) : List Byte :=
  [p.type, p.code] ++ storeU16 be p.checksum ++ storeU16 be p.id ++
    storeU16 be p.sequence ++ p.payload.val

/-- The result of `memset(payload, 0xAA, 56)`. -/
def payloadAA : Payload := ⟨List.replicate 56 0xAA, List.length_replicate 56 _⟩

/-- The class `ICMP`: its only member is `packet_`. -/
structure ICMP where
  packet_ : ICMPPacket
deriving DecidableEq

/-- The method `updateChecksum`, lines 64-67. -/
def ICMP.updateChecksum (be : Bool) (self : ICMP) : ICMP :=
  let p0 : ICMPPacket := { self.packet_ with checksum := 0 }
  ⟨{ p0 with checksum := htons be (calculateChecksum be (p0.bytes be)) }⟩

/-- The constructor `ICMP(id, seq)`, lines 55-62; `getpid` is what `getpid()` returns.
The checksum field is not initialised before `updateChecksum` clears it. -/
def ICMP.new (be : Bool) (getpid : Nat) (id seq : U16) : ICMP :=
  ICMP.updateChecksum be
    ⟨{ type := 8
       code := 0
       checksum := 0
       id := htons be (toU16 (if id ≠ 0 then id.val else getpid &&& 0xFFFF))
       sequence := htons be seq
       payload := payloadAA }⟩

/-- The method `setSequence`, line 63. -/
def ICMP.setSequence (be : Bool) (self : ICMP) (seq : U16) : ICMP :=
  ICMP.updateChecksum be ⟨{ self.packet_ with sequence := htons be seq }⟩

/-- The method `getId`, line 68. -/
def ICMP.getId (be : Bool) (self : ICMP) : U16 := ntohs be self.packet_.id

/-- The method `getSeq`, line 69. -/
def ICMP.getSeq (be : Bool) (self : ICMP) : U16 := ntohs be self.packet_.sequence

/-- The method `getCksum`, line 70. -/
def ICMP.getCksum (be : Bool) (self : ICMP) : U16 := ntohs be self.packet_.checksum

/-- The method `size`, line 71: `sizeof(packet_)`. -/
def ICMP.size (_self : ICMP) : Nat := 64

/-- The method `raw`, line 72, as the octets the pointer designates. -/
def ICMP.raw (be : Bool) (self : ICMP) : List Byte := self.packet_.bytes be

/-- The method `matches`, lines 73-76. -/
def ICMP.matches (self : ICMP) (r : ICMPPacket) : Bool :=
  r.type == 0 && r.code == 0 && r.id == self.packet_.id && r.sequence == self.packet_.sequence

/-! ## Arithmetic of `double` -/

/-- Rounding of a rational to the nearest integer, a tie going to the even neighbour. -/
def roundHalfEven (y : ℚ) : Int :=
  let f := ⌊y⌋
  if y - (f : ℚ) < 1 / 2 then f
  else if 1 / 2 < y - (f : ℚ) then f + 1
  else if f % 2 = 0 then f else f + 1

/-- The spacing of the `double` values around `x`: `2 ^ (e - 52)` where
`2 ^ e ≤ |x| < 2 ^ (e + 1)`, and `2 ^ (-1074)` below the normal range. -/
def ulp (x : ℚ) : ℚ := (2 : ℚ) ^ (max (Int.log 2 |x|) (-1022) - 52)

/-- The `double` nearest to `x` (IEEE 754 binary64, round to nearest, ties to even): the
result of a `double` operation whose exact value is `x`. The function is exact for
`|x| < 2 ^ 1024`; larger magnitudes, which overflow, are outside of it. -/
def roundDouble (x : ℚ) : ℚ := (roundHalfEven (x / ulp x) : ℚ) * ulp x

/-! ## The probe loop of `main` -/

/-- The value an `int` holds after an arithmetic result `x`: signed overflow, undefined in
C++, is taken as the two's-complement wrap-around of the usual targets. -/
def wrapInt32 (x : Int) : Int := (x + 2147483648) % 4294967296 - 2147483648

/-- Conversion of an `int` to `uint16_t`. -/
def intToU16 (x : Int) : U16 := toU16 (x % 65536).toNat

/-- What the operating system does during one probe, lines 144-156. -/
inductive ProbeEvent where
  /-- The call `sendto` returned a negative value. -/
  | sendFailed
  /-- The call `recvfrom` returned a negative value; `again` tells whether `errno` is
  `EAGAIN` or `EWOULDBLOCK` (a timeout). -/
  | recvFailed (again : Bool)
  /-- The call `recvfrom` returned `n ≥ 0`; `buf` is the content of `char buf[512]`
  afterwards and `rtt` the value of the `double` variable `rtt` of line 156, the measured
  round-trip time in milliseconds. -/
  | received (n : Nat) (buf : List Byte) (rtt : ℚ)

/-- The variables of `main` the loop updates (lines 136-137), with the requests built so
far, oldest first. The three `double` variables hold the rationals they represent. -/
structure LoopState where
  sent : Int
  recv : Int
  minRtt : ℚ
  maxRtt : ℚ
  sumRtt : ℚ
  probes : List ICMP

/-- The state before the loop: `sent = 0, recv = 0, minRtt = 1e9, maxRtt = 0, sumRtt = 0`. -/
def LoopState.init : LoopState :=
  { sent := 0, recv := 0, minRtt := 1000000000, maxRtt := 0, sumRtt := 0, probes := [] }

/-- The expression `(buf[0] & 0x0F) * 4` of line 167. -/
def ipHeaderLen (buf : List Byte) : Nat := ((byteAt buf 0).val &&& 0x0F) * 4

/-- The object `*(const ICMPPacket*)(buf + off)` of line 170. -/
def packetAt (be : Bool) (buf : List Byte) (off : Nat) : ICMPPacket :=
  { type := byteAt buf off
    code := byteAt buf (off + 1)
    checksum := loadU16 be (byteAt buf (off + 2)) (byteAt buf (off + 3))
    id := loadU16 be (byteAt buf (off + 4)) (byteAt buf (off + 5))
    sequence := loadU16 be (byteAt buf (off + 6)) (byteAt buf (off + 7))
    payload := ⟨(List.range 56).map (fun i => byteAt buf (off + 8 + i)),
      by rw [List.length_map, List.length_range]⟩ }

/-- The offsets, within an `ICMPPacket`, of the octets of the members `matches` reads:
`type`, `code`, `id` and `sequence`. -/
def matchesReadOffsets : List Nat := [0, 1, 4, 5, 6, 7]

/-- One iteration of the loop body, lines 140-178, for the value `seq` of the loop
variable. The counters `sent` and `recv` never exceed the number of iterations made, so
their increments do not overflow. -/
def probeStep (be : Bool) (getpid : Nat) (pid : U16) (seq : Int) (st : LoopState) :
    ProbeEvent → LoopState
  | .sendFailed =>
    let pkt := ICMP.new be getpid pid (intToU16 seq)
    { st with probes := st.probes ++ [pkt] }
  | .recvFailed _ =>
    let pkt := ICMP.new be getpid pid (intToU16 seq)
    { st with sent := st.sent + 1, probes := st.probes ++ [pkt] }
  | .received n buf rtt =>
    let pkt := ICMP.new be getpid pid (intToU16 seq)
    let st := { st with sent := st.sent + 1, probes := st.probes ++ [pkt] }
    let ipLen := ipHeaderLen buf
    if n < ipLen + 64 then st
    else if !pkt.matches (packetAt be buf ipLen) then st
    else
      { st with
        recv := st.recv + 1
        minRtt := min st.minRtt rtt
        maxRtt := max st.maxRtt rtt
        sumRtt := roundDouble (st.sumRtt + rtt) }

/-- The loop `for (int seq = 1; seq <= count; ++seq)`, lines 139-179, from the value `seq`
of the loop variable. Each iteration consumes one event; the result is `none` when the
events run out before the loop has ended. -/
def probeLoop (be : Bool) (getpid : Nat) (pid : U16) (count : Int) :
    List ProbeEvent → Int → LoopState → Option LoopState
  | [], seq, st => if seq ≤ count then none else some st
  | ev :: rest, seq, st =>
    if seq ≤ count then
      probeLoop be getpid pid count rest (wrapInt32 (seq + 1))
        (probeStep be getpid pid seq st ev)
    else some st

/-- Lines 135-179 of `main`: `pid = getpid() & 0xFFFF`, the counters at their initial
values, and the loop from `seq = 1`. -/
def runProbes (be : Bool) (getpid : Nat) (count : Int) (evs : List ProbeEvent) :
    Option LoopState :=
  probeLoop be getpid (toU16 (getpid &&& 0xFFFF)) count evs 1 LoopState.init

/-- The expression `(sent - recv) * 100 / sent` of line 184, in `int` arithmetic. -/
def lossPercent (st : LoopState) : Int :=
  Int.tdiv (wrapInt32 (wrapInt32 (st.sent - st.recv) * 100)) st.sent

/-- What the summary of lines 181-190 prints. -/
structure Summary where
  transmitted : Int
  received : Int
  loss : Int
  /-- The values `minRtt`, `avg`, `maxRtt` of the line printed when `recv` is not zero. -/
  rtt : Option (ℚ × ℚ × ℚ)

/-- The summary of lines 181-190: nothing when `sent` is zero. -/
def summary (st : LoopState) : Option Summary :=
  if st.sent ≠ 0 then
    some
      { transmitted := st.sent
        received := st.recv
        loss := lossPercent st
        rtt := if st.recv ≠ 0 then
            some (st.minRtt, roundDouble (st.sumRtt / (st.recv : ℚ)), st.maxRtt)
          else none }
  else none

/-- Whether the probe for `seq` ends at line 173: a datagram was received, it is long
enough, and it matches the request. -/
def replied (be : Bool) (getpid : Nat) (pid : U16) (seq : Int) : ProbeEvent → Bool
  | .received n buf _ =>
    !decide (n < ipHeaderLen buf + 64) &&
      (ICMP.new be getpid pid (intToU16 seq)).matches (packetAt be buf (ipHeaderLen buf))
  | _ => false

/-- Whether `sendto` succeeded. -/
def ProbeEvent.sendOk : ProbeEvent → Bool
  | .sendFailed => false
  | _ => true

/-- The round-trip times of the probes that received a matching reply, in order, when the
events are those of the iterations from `seq` on. -/
def repliedRtts (be : Bool) (getpid : Nat) (pid : U16) : List ProbeEvent → Int → List ℚ
  | [], _ => []
  | .received n buf rtt :: rest, seq =>
    if replied be getpid pid seq (.received n buf rtt) then
      rtt :: repliedRtts be getpid pid rest (seq + 1)
    else repliedRtts be getpid pid rest (seq + 1)
  | _ :: rest, seq => repliedRtts be getpid pid rest (seq + 1)

/-- A reply datagram: a 20-octet IP header, an echo reply with the given identifier and
sequence, and zeroes up to the 512 octets of the receive buffer. -/
def replyBuf (id seq : U16) : List Byte :=
  [0x45] ++ List.replicate 19 0 ++
    [0, 0, 0, 0, toByte (id.val / 256), toByte id.val, toByte (seq.val / 256),
      toByte seq.val] ++ List.replicate 484 0

/-- The iterations of the loop body for the given events, one after the other, from the
value `seq` of the loop variable, with `seq` taken as a mathematical integer. -/
def applyEvents (be : Bool) (getpid : Nat) (pid : U16) :
    List ProbeEvent → Int → LoopState → LoopState
  | [], _, st => st
  | ev :: rest, seq, st =>
    applyEvents be getpid pid rest (seq + 1) (probeStep be getpid pid seq st ev)

/-- Whether the probe for `seq` is sent and then discarded: its receive step yields a
timeout or a receive error, a datagram shorter than `ipLen + 64`, or a datagram whose
ICMP message does not match the request. -/
def discarded (be : Bool) (getpid : Nat) (pid : U16) (seq : Int) : ProbeEvent → Bool
  | .sendFailed => false
  | .recvFailed _ => true
  | .received n buf _ =>
    decide (n < ipHeaderLen buf + 64) ||
      !(ICMP.new be getpid pid (intToU16 seq)).matches (packetAt be buf (ipHeaderLen buf))

/-- The 16-bit value an exact sum folds to in one's-complement arithmetic: its residue
modulo 65535, with `0xFFFF` rather than 0 for a non-zero multiple. -/
def onesNorm (w : Nat) : Nat := if w = 0 then 0 else (w - 1) % 65535 + 1

/-! ## The folding steps -/

/-- The value of `sum` when line 50 of `calculateChecksum` is reached (lines 42-49): the
words and, for an odd length, the last octet, accumulated in a `uint32_t`. -/
def accumulate (be : Bool) (data : List Byte) : Nat :=
  let len := data.length
  let count := len / 2
  let sum := (List.range count).foldl
    (fun sum i => (sum + (ntohs be (wordAt be data i)).val) % 2 ^ 32) 0
  if len &&& 1 ≠ 0 then (sum + (byteAt data (len - 1)).val) % 2 ^ 32 else sum

/-- Lines 50-51 of `calculateChecksum`: `sum = (sum >> 16) + (sum & 0xFFFF);
sum += (sum >> 16);` on a `uint32_t`. -/
def twoFolds (sum : Nat) : Nat :=
  let sum := ((sum >>> 16) + (sum &&& 0xFFFF)) % 2 ^ 32
  (sum + (sum >>> 16)) % 2 ^ 32

/-- One fold of the carries: `(sum >> 16) + (sum & 0xFFFF)`. -/
def foldOnce (sum : Nat) : Nat := (sum >>> 16) + (sum &&& 0xFFFF)

/-- The fold `sum = (sum >> 16) + (sum & 0xFFFF)` repeated until no carry remains above
bit 15. -/
def foldCarries (sum : Nat) : Nat :=
  if sum < 65536 then sum else foldCarries (foldOnce sum)
termination_by sum
decreasing_by
  have e1 : sum >>> 16 = sum / 65536 := Nat.shiftRight_eq_div_pow sum 16
  have e2 : sum &&& 0xFFFF = sum % 65536 := Nat.and_pow_two_sub_one_eq_mod sum 16
  show (sum >>> 16) + (sum &&& 0xFFFF) < sum
  rw [e1, e2]
  omega

/-! ## Calls on an `ICMP` object -/

/-- A call of one of the two mutating methods of `ICMP`. -/
inductive ICMPCall where
  | setSequence (seq : U16)
  | updateChecksum

/-- The effect of one call. -/
def ICMP.call (be : Bool) (self : ICMP) : ICMPCall → ICMP
  | .setSequence seq => self.setSequence be seq
  | .updateChecksum => self.updateChecksum be

/-- The effect of a sequence of calls, first call first. -/
def ICMP.calls (be : Bool) (self : ICMP) (cs : List ICMPCall) : ICMP :=
  cs.foldl (ICMP.call be) self

/-! ## The summary with checked divisions, reachable states -/

/-- The `int` division `a / b`, with `none` for a zero divisor. -/
def checkedDivInt (a b : Int) : Option Int := if b = 0 then none else some (Int.tdiv a b)

/-- The division `a / b` of a `double` by an `int`, with `none` for a zero divisor. -/
def checkedDivRat (a : ℚ) (b : Int) : Option ℚ :=
  if b = 0 then none else some (roundDouble (a / (b : ℚ)))

/-- The summary of lines 181-190 with its two divisions checked: the outer `none` stands
for a division by zero, the inner one for no statistics printed. -/
def summaryChecked (st : LoopState) : Option (Option Summary) :=
  if st.sent ≠ 0 then
    match checkedDivInt (wrapInt32 (wrapInt32 (st.sent - st.recv) * 100)) st.sent with
    | none => none
    | some loss =>
      if st.recv ≠ 0 then
        match checkedDivRat st.sumRtt st.recv with
        | none => none
        | some avg =>
          some (some
            { transmitted := st.sent
              received := st.recv
              loss := loss
              rtt := some (st.minRtt, avg, st.maxRtt) })
      else
        some (some
          { transmitted := st.sent
            received := st.recv
            loss := loss
            rtt := none })
  else some none

/-- The states the loop variables can be in after `n` probe steps from the initial state,
whatever the sequence numbers and the events of the steps. -/
inductive Reachable (be : Bool) (getpid : Nat) (pid : U16) : Nat → LoopState → Prop where
  | init : Reachable be getpid pid 0 LoopState.init
  | step {n : Nat} {st : LoopState} (seq : Int) (ev : ProbeEvent) :
    Reachable be getpid pid n st →
    Reachable be getpid pid (n + 1) (probeStep be getpid pid seq st ev)

/-! ## The command line -/

/-- The loop of lines 116-119 of `main` over the arguments not yet read, with the current
values of `count` and `host`; `atoi` is the library function. An argument `-c` that has a
successor sets `count` from it and skips it, any other argument becomes the host. -/
def parseLoop (atoi : String → Int) : List String → Int → String → Int × String
  | [], count, host => (count, host)
  | [a], count, _ => (count, a)
  | a :: v :: rest, count, host =>
    if a = "-c" then parseLoop atoi rest (atoi v) host
    else parseLoop atoi (v :: rest) count a

/-- Lines 109-120 of `main` on the argument vector `argv` (`argc` is its length): the exit
status 1 after the usage message or after `Host required`, or else the values of `count`
and `host` the program goes on with. -/
def parseArgs (atoi : String → Int) (argv : List String) : Except Nat (Int × String) :=
  if argv.length < 3 then Except.error 1
  else
    let r := parseLoop atoi (argv.drop 1) 4 ""
    if r.2 = "" then Except.error 1 else Except.ok r

/-- The value of `rtt` of line 156 for an elapsed time of `us` microseconds:
`duration_cast<microseconds>(end - st).count() / 1000.0`, the integer count converted to
`double` and divided by the `double` 1000. -/
def rttOfMicros (us : Int) : ℚ := roundDouble (roundDouble (us : ℚ) / 1000)

/-- The `double` nearest to 0.030: the value of `rtt` for 30 microseconds, `30 / 1000.0`. -/
def rtt30 : ℚ := 8646911284551352 / 2 ^ 58

/-- The `double` nearest to 0.037: the value of `rtt` for 37 microseconds, `37 / 1000.0`. -/
def rtt37 : ℚ := 5332261958806667 / 2 ^ 57

/-! # Theorems -/

/-! ## Machine-word lemmas -/

theorem and_ffff (n : Nat) : n &&& 0xFFFF = n % 65536 :=
  Nat.and_pow_two_sub_one_eq_mod n 16

theorem shr16 (n : Nat) : n >>> 16 = n / 65536 := by
  rw [Nat.shiftRight_eq_div_pow]

theorem toU16_val (n : Nat) : (toU16 n).val = n % 65536 := rfl

theorem toByte_val (n : Nat) : (toByte n).val = n % 256 := rfl


theorem ntohs_loadU16 (be : Bool) (b0 b1 : Byte) :
    (ntohs be (loadU16 be b0 b1)).val = b0.val * 256 + b1.val := by
  have h0 := b0.isLt
  have h1 := b1.isLt
  cases be
  · simp only [ntohs, loadU16, bswap16, toU16_val, if_false, Bool.false_eq_true]
    have e1 : (b1.val * 256 + b0.val) % 65536 = b1.val * 256 + b0.val :=
      Nat.mod_eq_of_lt (by omega)
    have e2 : (b1.val * 256 + b0.val) % 256 = b0.val := by omega
    have e3 : (b1.val * 256 + b0.val) / 256 = b1.val := by omega
    rw [e1, e2, e3]
    exact Nat.mod_eq_of_lt (by omega)
  · simp only [ntohs, loadU16, toU16_val, if_true]
    exact Nat.mod_eq_of_lt (by omega)

theorem ntohs_wordAt (be : Bool) (data : List Byte) (i : Nat) :
    (ntohs be (wordAt be data i)).val = netWord data i := by
  simp only [wordAt, netWord, ntohs_loadU16]

theorem foldl_wordSum (be : Bool) (data : List Byte) (k : Nat) :
    (List.range k).foldl
      (fun sum i => (sum + (ntohs be (wordAt be data i)).val) % 2 ^ 32) 0
      = wordSum data k % 2 ^ 32 := by
  induction k with
  | zero => rfl
  | succ k ih =>
    rw [List.range_succ, List.foldl_append, ih]
    simp only [List.foldl_cons, List.foldl_nil, wordSum, ntohs_wordAt]
    exact (Nat.mod_add_mod _ _ _)

theorem finish_eq (s : Nat) (hs : s < 2 ^ 32) :
    (2 ^ 32 - 1 - ((s / 65536 + s % 65536) % 2 ^ 32 +
      (s / 65536 + s % 65536) % 2 ^ 32 / 65536) % 2 ^ 32) % 65536 = finish s := by
  unfold finish
  have ha : s / 65536 + s % 65536 < 131072 := by omega
  generalize s / 65536 + s % 65536 = a at ha ⊢
  have e1 : a % 2 ^ 32 = a := Nat.mod_eq_of_lt (by omega)
  rw [e1]
  have e2 : (a + a / 65536) % 2 ^ 32 = a + a / 65536 := Nat.mod_eq_of_lt (by omega)
  rw [e2]
  omega

theorem accum_eq (data : List Byte) :
    (if data.length % 2 ≠ 0
      then (wordSum data (data.length / 2) % 2 ^ 32 +
        (byteAt data (data.length - 1)).val) % 2 ^ 32
      else wordSum data (data.length / 2) % 2 ^ 32) = rawSum data % 2 ^ 32 := by
  unfold rawSum
  by_cases h : data.length % 2 = 1
  · have h2 : data.length % 2 ≠ 0 := by omega
    rw [if_pos h2, if_pos h, Nat.mod_add_mod]
  · have h2 : ¬ data.length % 2 ≠ 0 := by omega
    rw [if_neg h2, if_neg h, Nat.add_zero]

/-- The value of `calculateChecksum` in terms of the exact sum. -/
theorem calculateChecksum_val (be : Bool) (data : List Byte) :
    (calculateChecksum be data).val = finish (rawSum data % 2 ^ 32) := by
  simp only [calculateChecksum, foldl_wordSum, and_ffff, shr16, Nat.and_one_is_mod,
    toU16_val, accum_eq]
  exact finish_eq _ (Nat.mod_lt _ (by decide))

theorem finish_mul (m : Nat) (h1 : 1 ≤ m) (h2 : m ≤ 65537) : finish (65535 * m) = 0 := by
  unfold finish
  have hq : 65535 * m / 65536 = if m = 65537 then 65535 else m - 1 := by split <;> omega
  have hr : 65535 * m % 65536 = if m = 65537 then 65535 else 65536 - m := by split <;> omega
  rw [hq, hr]
  split <;> omega

theorem finish_add (s : Nat) (hs : s < 2 ^ 32) :
    ∃ m, 1 ≤ m ∧ m ≤ 65537 ∧ s + finish s = 65535 * m := by
  unfold finish
  have hdm : 65536 * (s / 65536) + s % 65536 = s := Nat.div_add_mod s 65536
  have hl : s % 65536 < 65536 := Nat.mod_lt _ (by decide)
  have hh : s / 65536 < 65536 := by omega
  generalize s / 65536 = h at hdm hh ⊢
  generalize s % 65536 = l at hdm hl ⊢
  by_cases g : h + l < 65536
  · refine ⟨h + 1, by omega, by omega, ?_⟩
    have e0 : (h + l) / 65536 = 0 := Nat.div_eq_of_lt g
    have e : (h + l + (h + l) / 65536) % 65536 = h + l := by
      rw [e0, Nat.add_zero]; exact Nat.mod_eq_of_lt g
    rw [e]; omega
  · refine ⟨h + 2, by omega, by omega, ?_⟩
    have e0 : (h + l) / 65536 = 1 := by omega
    have e : (h + l + (h + l) / 65536) % 65536 = h + l - 65535 := by
      rw [e0]; omega
    rw [e]; omega

theorem finish_verify (s : Nat) (hs : s < 2 ^ 32) :
    finish ((s + finish s) % 2 ^ 32) = 0 := by
  obtain ⟨m, h1, h2, e⟩ := finish_add s hs
  rw [e, Nat.mod_eq_of_lt (by omega)]
  exact finish_mul m h1 h2

theorem length_setChecksumField (data : List Byte) (c : U16) :
    (setChecksumField data c).length = data.length := by
  simp [setChecksumField]

theorem byteAt_setChecksumField (data : List Byte) (c : U16) (h : 4 ≤ data.length)
    (i : Nat) :
    byteAt (setChecksumField data c) i =
      if i = 3 then toByte c.val else if i = 2 then toByte (c.val / 256)
      else byteAt data i := by
  unfold byteAt setChecksumField
  rw [List.getD_eq_getElem?_getD, List.getD_eq_getElem?_getD, List.getElem?_set,
    List.getElem?_set]
  by_cases h3 : i = 3
  · subst h3
    have h4 : 3 < data.length := by omega
    simp [h4]
  · by_cases h2 : i = 2
    · subst h2
      have h4 : 2 < data.length := by omega
      simp [h4]
    · simp [h3, h2, Ne.symm h3, Ne.symm h2]

theorem netWord_setChecksumField (data : List Byte) (c : U16) (h : 4 ≤ data.length)
    (i : Nat) :
    netWord (setChecksumField data c) i = if i = 1 then c.val else netWord data i := by
  unfold netWord
  rw [byteAt_setChecksumField data c h, byteAt_setChecksumField data c h]
  by_cases h1 : i = 1
  · subst h1
    have hc := c.isLt
    have a1 : ¬ 2 * 1 = 3 := by decide
    have a2 : 2 * 1 = 2 := rfl
    have a3 : 2 * 1 + 1 = 3 := rfl
    rw [if_neg a1, if_pos a2, if_pos a3, if_pos rfl, toByte_val, toByte_val]
    omega
  · have a1 : ¬ 2 * i = 3 := by omega
    have a2 : ¬ 2 * i = 2 := by omega
    have a3 : ¬ 2 * i + 1 = 3 := by omega
    have a4 : ¬ 2 * i + 1 = 2 := by omega
    simp only [if_neg a1, if_neg a2, if_neg a3, if_neg a4, if_neg h1]

theorem wordSum_setChecksumField (data : List Byte) (c : U16) (h : 4 ≤ data.length)
    (k : Nat) :
    wordSum (setChecksumField data c) k =
      wordSum (setChecksumField data 0) k + (if 1 < k then c.val else 0) := by
  induction k with
  | zero => rfl
  | succ k ih =>
    simp only [wordSum, ih, netWord_setChecksumField data _ h]
    by_cases h1 : k = 1
    · subst h1; simp
    · by_cases h2 : 1 < k
      · have h3 : 1 < k + 1 := by omega
        simp only [if_pos h2, if_pos h3, if_neg h1]; omega
      · have h3 : ¬ 1 < k + 1 := by omega
        simp only [if_neg h2, if_neg h3, if_neg h1]; omega

theorem rawSum_setChecksumField (data : List Byte) (c : U16) (h : 4 ≤ data.length) :
    rawSum (setChecksumField data c) = rawSum (setChecksumField data 0) + c.val := by
  unfold rawSum
  rw [length_setChecksumField, length_setChecksumField,
    wordSum_setChecksumField data c h, byteAt_setChecksumField data c h,
    byteAt_setChecksumField data 0 h]
  have h1 : 1 < data.length / 2 := by omega
  rw [if_pos h1]
  by_cases hodd : data.length % 2 = 1
  · have a1 : ¬ data.length - 1 = 3 := by omega
    have a2 : ¬ data.length - 1 = 2 := by omega
    simp only [if_pos hodd, if_neg a1, if_neg a2]; omega
  · simp only [if_neg hodd]; omega

/-- C1. Checksum verification identity: for every buffer of at least four octets, of even
or odd length, if `c` is `calculateChecksum` of the buffer with octets 2 and 3 zeroed, then
`calculateChecksum` of the buffer with `c` written big-endian into octets 2 and 3 is
`0x0000`. -/
theorem checksum_verification_identity (be : Bool) (data : List Byte)
    (h : 4 ≤ data.length) :
    calculateChecksum be
      (setChecksumField data (calculateChecksum be (setChecksumField data 0))) = 0 := by
  apply Fin.ext
  rw [calculateChecksum_val, rawSum_setChecksumField data _ h, calculateChecksum_val,
    ← Nat.mod_add_mod]
  exact finish_verify _ (Nat.mod_lt _ (by decide))

theorem checksum_verification_identity_witness :
    calculateChecksum false
      (setChecksumField [8, 0, 0x12, 0x34, 0xBE, 0xEF, 0, 1, 0xAA]
        (calculateChecksum false
          (setChecksumField [8, 0, 0x12, 0x34, 0xBE, 0xEF, 0, 1, 0xAA] 0))) = 0 :=
  checksum_verification_identity false [8, 0, 0x12, 0x34, 0xBE, 0xEF, 0, 1, 0xAA]
    (by decide)
/-! ## Byte order -/

theorem bswap16_val (v : U16) : (bswap16 v).val = v.val % 256 * 256 + v.val / 256 := by
  have h := v.isLt
  unfold bswap16
  rw [toU16_val]
  exact Nat.mod_eq_of_lt (by omega)

theorem bswap16_bswap16 (v : U16) : bswap16 (bswap16 v) = v := by
  apply Fin.ext
  have h := v.isLt
  rw [bswap16_val, bswap16_val]
  omega

theorem ntohs_htons (be : Bool) (v : U16) : ntohs be (htons be v) = v := by
  cases be
  · exact bswap16_bswap16 v
  · rfl

theorem htons_ntohs (be : Bool) (v : U16) : htons be (ntohs be v) = v := by
  cases be
  · exact bswap16_bswap16 v
  · rfl

theorem ntohs_injective (be : Bool) (a b : U16) : ntohs be a = ntohs be b ↔ a = b := by
  constructor
  · intro h
    have := congrArg (htons be) h
    rwa [htons_ntohs, htons_ntohs] at this
  · intro h; rw [h]

theorem htons_injective (be : Bool) (a b : U16) : htons be a = htons be b ↔ a = b := by
  constructor
  · intro h
    have := congrArg (ntohs be) h
    rwa [ntohs_htons, ntohs_htons] at this
  · intro h; rw [h]

/-- In memory, `htons v` is `v` in network byte order on either kind of host. -/
theorem storeU16_htons (be : Bool) (v : U16) :
    storeU16 be (htons be v) = [toByte (v.val / 256), toByte v.val] := by
  have h := v.isLt
  cases be
  · simp only [storeU16, htons, Bool.false_eq_true, if_false, bswap16_val]
    have e1 : toByte (v.val % 256 * 256 + v.val / 256) = toByte (v.val / 256) := by
      apply Fin.ext; rw [toByte_val, toByte_val]; omega
    have q : (v.val % 256 * 256 + v.val / 256) / 256 = v.val % 256 := by omega
    have e2 : toByte ((v.val % 256 * 256 + v.val / 256) / 256) = toByte v.val := by
      apply Fin.ext; rw [toByte_val, toByte_val, q]; omega
    rw [e1, e2]
  · rfl

theorem storeU16_zero (be : Bool) : storeU16 be 0 = [0, 0] := by
  cases be <;> rfl

theorem length_storeU16 (be : Bool) (v : U16) : (storeU16 be v).length = 2 := by
  cases be <;> rfl

theorem length_bytes (be : Bool) (p : ICMPPacket) : (p.bytes be).length = 64 := by
  simp [ICMPPacket.bytes, length_storeU16, p.payload.property]

/-- Clearing the checksum member clears octets 2 and 3 of the image. -/
theorem bytes_checksum_zero (be : Bool) (p : ICMPPacket) :
    ({ p with checksum := 0 } : ICMPPacket).bytes be = setChecksumField (p.bytes be) 0 := by
  cases be <;> simp [ICMPPacket.bytes, storeU16, setChecksumField, toByte]

/-! ## The constructor -/

/-- The identifier a message built by `ICMP(id, seq)` carries: `id`, or
`getpid() & 0xFFFF` when `id` is zero. -/
theorem new_getId (be : Bool) (getpid : Nat) (id seq : U16) :
    (ICMP.new be getpid id seq).getId be =
      if id ≠ 0 then id else toU16 (getpid &&& 0xFFFF) := by
  simp only [ICMP.new, ICMP.updateChecksum, ICMP.getId, ntohs_htons]
  split
  · apply Fin.ext; rw [toU16_val]; exact Nat.mod_eq_of_lt id.isLt
  · rfl

theorem new_getSeq (be : Bool) (getpid : Nat) (id seq : U16) :
    (ICMP.new be getpid id seq).getSeq be = seq := by
  simp only [ICMP.new, ICMP.updateChecksum, ICMP.getSeq, ntohs_htons]

theorem updateChecksum_getCksum (be : Bool) (m : ICMP) :
    (m.updateChecksum be).getCksum be =
      calculateChecksum be (setChecksumField ((m.updateChecksum be).raw be) 0) := by
  simp only [ICMP.updateChecksum, ICMP.getCksum, ntohs_htons, ICMP.raw,
    ← bytes_checksum_zero]

theorem updateChecksum_raw (be : Bool) (m : ICMP) :
    (m.updateChecksum be).raw be =
      [m.packet_.type, m.packet_.code,
        toByte (((m.updateChecksum be).getCksum be).val / 256),
        toByte ((m.updateChecksum be).getCksum be).val] ++
      storeU16 be m.packet_.id ++ storeU16 be m.packet_.sequence ++ m.packet_.payload.val := by
  simp only [ICMP.updateChecksum, ICMP.getCksum, ntohs_htons, ICMP.raw, ICMPPacket.bytes,
    storeU16_htons, List.cons_append, List.nil_append]

/-- C3 (as amended). For every identifier and sequence, on either kind of host, the
message built by the constructor is 64 octets long with type 8, code 0, the identifier in
big-endian order where the identifier is the given one when it is not zero and
`getpid() & 0xFFFF` when it is zero (`getId` returns it), the given sequence in
big-endian order (`getSeq` returns it), 56 payload octets `0xAA`, and a checksum field
holding, in big-endian order, `calculateChecksum` of the 64 octets with that field zero
(`getCksum` returns it). -/
theorem constructor_message (be : Bool) (getpid : Nat) (id seq : U16) :
    let m := ICMP.new be getpid id seq
    let eid : U16 := if id ≠ 0 then id else toU16 (getpid &&& 0xFFFF)
    let ck := m.getCksum be
    (m.raw be).length = 64 ∧ m.size = 64 ∧
    m.packet_.type = 8 ∧ m.packet_.code = 0 ∧
    m.getId be = eid ∧ m.getSeq be = seq ∧
    m.packet_.payload.val = List.replicate 56 0xAA ∧
    m.raw be =
      [8, 0, toByte (ck.val / 256), toByte ck.val, toByte (eid.val / 256), toByte eid.val,
        toByte (seq.val / 256), toByte seq.val] ++ List.replicate 56 0xAA ∧
    ck = calculateChecksum be (setChecksumField (m.raw be) 0) := by
  refine ⟨length_bytes be _, rfl, rfl, rfl, new_getId be getpid id seq,
    new_getSeq be getpid id seq, rfl, ?_, updateChecksum_getCksum be _⟩
  have hid := new_getId be getpid id seq
  simp only [ICMP.new] at hid ⊢
  rw [updateChecksum_raw, ← hid]
  simp only [ICMP.updateChecksum, ICMP.getId, ntohs_htons, storeU16_htons, payloadAA,
    List.cons_append, List.nil_append]

/-- C3, counterexample. Built with identifier 0 in a process whose pid is 1234, the
message carries identifier 1234: `getId` does not return the given identifier. -/
theorem constructor_zero_identifier :
    (ICMP.new false 1234 0 7).getId false = 1234 ∧
      (ICMP.new false 1234 0 7).getId false ≠ 0 := by
  decide

/-! ## `matches` -/

theorem matches_iff_fields (req : ICMP) (r : ICMPPacket) :
    req.matches r = true ↔
      r.type = 0 ∧ r.code = 0 ∧ r.id = req.packet_.id ∧ r.sequence = req.packet_.sequence := by
  simp only [ICMP.matches, Bool.and_eq_true, beq_iff_eq, and_assoc]

/-- C4. For every request and every candidate reply, `matches` returns true if and only
if the reply has type 0, code 0, the identifier of the request and the sequence of the
request; and the answer is the same for any two replies that differ only in their
checksum field and payload. -/
theorem matches_four_fields (be : Bool) (req : ICMP) (r : ICMPPacket) :
    (req.matches r = true ↔
      r.type = 0 ∧ r.code = 0 ∧ ntohs be r.id = req.getId be ∧
        ntohs be r.sequence = req.getSeq be) ∧
    (∀ (ck : U16) (pl : Payload),
      req.matches { r with checksum := ck, payload := pl } = req.matches r) := by
  refine ⟨?_, fun _ _ => rfl⟩
  rw [matches_iff_fields, ICMP.getId, ICMP.getSeq, ntohs_injective, ntohs_injective]

/-- The synthetic reply to a request for `(id, seq)`. -/
theorem matches_reply_iff (be : Bool) (getpid : Nat) (id seq : U16) (r : ICMPPacket) :
    (ICMP.new be getpid id seq).matches r = true ↔
      r.type = 0 ∧ r.code = 0 ∧
        ntohs be r.id = (if id ≠ 0 then id else toU16 (getpid &&& 0xFFFF)) ∧
        ntohs be r.sequence = seq := by
  have h1 : ntohs be (ICMP.new be getpid id seq).packet_.id = _ :=
    new_getId be getpid id seq
  have h2 : ntohs be (ICMP.new be getpid id seq).packet_.sequence = _ :=
    new_getSeq be getpid id seq
  rw [matches_iff_fields, ← ntohs_injective be r.id, ← ntohs_injective be r.sequence,
    h1, h2]

/-- C5 (as amended). For every identifier and sequence, the request built by the constructor
matches a reply with type 0, code 0, the identifier the request carries, which is the given
identifier or `getpid() & 0xFFFF` when the given identifier is 0, the same sequence and any
checksum and payload; so it matches the reply carrying the given identifier whenever that
identifier is not zero or `getpid() & 0xFFFF` is zero; and a reply in which exactly one of
identifier, sequence, type or code has another value is not matched. -/
theorem encode_match_roundtrip (be : Bool) (getpid : Nat) (id seq : U16)
    (ck : U16) (pl : Payload) :
    let req := ICMP.new be getpid id seq
    let eid : U16 := if id ≠ 0 then id else toU16 (getpid &&& 0xFFFF)
    req.getId be = eid ∧
    req.matches ⟨0, 0, ck, htons be eid, htons be seq, pl⟩ = true ∧
    ((id ≠ 0 ∨ toU16 (getpid &&& 0xFFFF) = 0) →
      req.matches ⟨0, 0, ck, htons be id, htons be seq, pl⟩ = true) ∧
    (∀ id2 : U16, id2 ≠ eid →
      req.matches ⟨0, 0, ck, htons be id2, htons be seq, pl⟩ = false) ∧
    (∀ seq2 : U16, seq2 ≠ seq →
      req.matches ⟨0, 0, ck, htons be eid, htons be seq2, pl⟩ = false) ∧
    (∀ t : Byte, t ≠ 0 →
      req.matches ⟨t, 0, ck, htons be eid, htons be seq, pl⟩ = false) ∧
    (∀ c : Byte, c ≠ 0 →
      req.matches ⟨0, c, ck, htons be eid, htons be seq, pl⟩ = false) := by
  intro req eid
  have key : ∀ r : ICMPPacket, req.matches r = true ↔
      r.type = 0 ∧ r.code = 0 ∧ ntohs be r.id = eid ∧ ntohs be r.sequence = seq :=
    fun r => matches_reply_iff be getpid id seq r
  have heid : (id ≠ 0 ∨ toU16 (getpid &&& 0xFFFF) = 0) → eid = id := by
    intro h
    show (if id ≠ 0 then id else toU16 (getpid &&& 0xFFFF)) = id
    by_cases h0 : id ≠ 0
    · rw [if_pos h0]
    · rw [if_neg h0]
      rcases h with h | h
      · exact absurd h h0
      · rw [h]; exact (not_not.mp h0).symm
  refine ⟨new_getId be getpid id seq, ?_, ?_, ?_, ?_, ?_, ?_⟩
  · rw [key]; simp only [ntohs_htons, and_self]
  · intro h
    rw [key]; simp only [ntohs_htons, heid h, and_self]
  · intro id2 h2
    rw [← Bool.not_eq_true, key]; simp only [ntohs_htons]
    exact fun h => h2 h.2.2.1
  · intro seq2 h2
    rw [← Bool.not_eq_true, key]; simp only [ntohs_htons]
    exact fun h => h2 h.2.2.2
  · intro t ht
    rw [← Bool.not_eq_true, key]
    exact fun h => ht h.1
  · intro c hc
    rw [← Bool.not_eq_true, key]
    exact fun h => hc h.2.1

/-- C5, counterexample. Built with identifier 0 in a process whose pid is 1234, the
request does not match the reply with type 0, code 0, identifier 0 and the same
sequence. -/
theorem roundtrip_zero_identifier :
    (ICMP.new false 1234 0 7).matches
      ⟨0, 0, 0, htons false 0, htons false 7, payloadAA⟩ = false := by
  decide

/-! ## Arithmetic of `double` -/

theorem roundHalfEven_bounds (y : ℚ) :
    ((⌊y⌋ : Int) : ℚ) ≤ (roundHalfEven y : ℚ) ∧ (roundHalfEven y : ℚ) ≤ (⌊y⌋ : ℚ) + 1 ∧
      |(roundHalfEven y : ℚ) - y| ≤ 1 / 2 := by
  have h1 : ((⌊y⌋ : Int) : ℚ) ≤ y := Int.floor_le y
  have h2 : y < (⌊y⌋ : ℚ) + 1 := Int.lt_floor_add_one y
  unfold roundHalfEven
  simp only []
  split
  · refine ⟨le_refl _, by linarith, ?_⟩
    rw [abs_le]; constructor <;> linarith
  · split
    · push_cast
      refine ⟨by linarith, le_refl _, ?_⟩
      rw [abs_le]; constructor <;> linarith
    · have e : y - (⌊y⌋ : ℚ) = 1 / 2 := by
        apply le_antisymm <;> linarith
      split
      · refine ⟨le_refl _, by linarith, ?_⟩
        rw [abs_le]; constructor <;> linarith
      · push_cast
        refine ⟨by linarith, le_refl _, ?_⟩
        rw [abs_le]; constructor <;> linarith

theorem ulp_pos (x : ℚ) : 0 < ulp x := zpow_pos (by norm_num) _

theorem roundDouble_zero : roundDouble 0 = 0 := by
  unfold roundDouble
  rw [zero_div]
  have : roundHalfEven 0 = 0 := by
    unfold roundHalfEven
    simp
  rw [this]
  simp

/-- The exponent of a value of the normal range. -/
theorem ulp_of_normal (x : ℚ) (hx : (2 : ℚ) ^ (-1022 : ℤ) ≤ x) :
    ulp x = (2 : ℚ) ^ (Int.log 2 x - 52) ∧ (2 : ℚ) ^ (Int.log 2 x) ≤ x ∧
      x < (2 : ℚ) ^ (Int.log 2 x + 1) := by
  have hpos : 0 < x := lt_of_lt_of_le (zpow_pos (by norm_num) _) hx
  have hlog : (-1022 : ℤ) ≤ Int.log 2 x := by
    rw [← Int.zpow_le_iff_le_log (by norm_num) hpos]
    exact_mod_cast hx
  have h1 := Int.zpow_log_le_self (b := 2) (r := x) (by norm_num) hpos
  have h2 := Int.lt_zpow_succ_log_self (b := 2) (by norm_num) x
  refine ⟨?_, by exact_mod_cast h1, by exact_mod_cast h2⟩
  unfold ulp
  rw [abs_of_pos hpos, max_eq_left hlog]

/-- The standard model of rounding: on the normal range the relative error of
`roundDouble` is at most `2 ^ (-53)`. -/
theorem roundDouble_rel (x : ℚ) (hx : (2 : ℚ) ^ (-1022 : ℤ) ≤ x) :
    x * (1 - 1 / 2 ^ 53) ≤ roundDouble x ∧ roundDouble x ≤ x * (1 + 1 / 2 ^ 53) := by
  obtain ⟨hu, h1, _⟩ := ulp_of_normal x hx
  have hq := ulp_pos x
  obtain ⟨_, _, hr⟩ := roundHalfEven_bounds (x / ulp x)
  have hq2 : ulp x * 2 ^ 53 ≤ x * 2 := by
    rw [hu]
    have e : (2 : ℚ) ^ (Int.log 2 x - 52) * 2 ^ 53 = 2 ^ (Int.log 2 x) * 2 := by
      rw [zpow_sub₀ (by norm_num)]
      norm_num
      ring
    rw [e]
    linarith
  have hd : |roundDouble x - x| ≤ ulp x / 2 := by
    have e : roundDouble x - x = ((roundHalfEven (x / ulp x) : ℚ) - x / ulp x) * ulp x := by
      unfold roundDouble
      field_simp
    rw [e, abs_mul, abs_of_pos hq]
    calc |(roundHalfEven (x / ulp x) : ℚ) - x / ulp x| * ulp x
        ≤ 1 / 2 * ulp x := mul_le_mul_of_nonneg_right hr (le_of_lt hq)
      _ = ulp x / 2 := by ring
  rw [abs_le] at hd
  constructor
  · have : x * (1 - 1 / 2 ^ 53) = x - x * 2 / 2 ^ 53 / 2 := by ring
    have h3 : ulp x / 2 ≤ x * 2 / 2 ^ 53 / 2 := by
      rw [div_le_div_iff_of_pos_right (by norm_num), le_div_iff₀ (by norm_num)]
      exact hq2
    linarith
  · have : x * (1 + 1 / 2 ^ 53) = x + x * 2 / 2 ^ 53 / 2 := by ring
    have h3 : ulp x / 2 ≤ x * 2 / 2 ^ 53 / 2 := by
      rw [div_le_div_iff_of_pos_right (by norm_num), le_div_iff₀ (by norm_num)]
      exact hq2
    linarith

/-- Rounding does not go below a power of two the value is not below. -/
theorem roundDouble_ge (x : ℚ) (a : ℤ) (ha : -1022 ≤ a) (hx : (2 : ℚ) ^ a ≤ x) :
    (2 : ℚ) ^ a ≤ roundDouble x := by
  have hpos : 0 < x := lt_of_lt_of_le (zpow_pos (by norm_num) _) hx
  have hn : (2 : ℚ) ^ (-1022 : ℤ) ≤ x :=
    le_trans (zpow_le_zpow_right₀ (by norm_num) ha) hx
  obtain ⟨hu, h1, _⟩ := ulp_of_normal x hn
  have hq := ulp_pos x
  have hlog : a ≤ Int.log 2 x := by
    rw [← Int.zpow_le_iff_le_log (by norm_num) hpos]
    exact_mod_cast hx
  obtain ⟨hf, _, _⟩ := roundHalfEven_bounds (x / ulp x)
  have hy : ((2 ^ 52 : Int) : ℚ) ≤ x / ulp x := by
    rw [le_div_iff₀ hq, hu]
    have e : ((2 ^ 52 : Int) : ℚ) * (2 : ℚ) ^ (Int.log 2 x - 52) = 2 ^ (Int.log 2 x) := by
      rw [zpow_sub₀ (by norm_num)]
      norm_num
      ring
    rw [e]
    exact h1
  have hfl : (2 ^ 52 : Int) ≤ ⌊x / ulp x⌋ := Int.le_floor.mpr hy
  have h52 : ((2 ^ 52 : Int) : ℚ) ≤ (roundHalfEven (x / ulp x) : ℚ) :=
    le_trans (by exact_mod_cast hfl) hf
  unfold roundDouble
  calc (2 : ℚ) ^ a ≤ 2 ^ (Int.log 2 x) := zpow_le_zpow_right₀ (by norm_num) hlog
    _ = ((2 ^ 52 : Int) : ℚ) * ulp x := by
        rw [hu, zpow_sub₀ (by norm_num)]
        norm_num
        ring
    _ ≤ (roundHalfEven (x / ulp x) : ℚ) * ulp x :=
        mul_le_mul_of_nonneg_right h52 (le_of_lt hq)

theorem roundDouble_rel_or_zero (x : ℚ) (hx : x = 0 ∨ (2 : ℚ) ^ (-1022 : ℤ) ≤ x) :
    x * (1 - 1 / 2 ^ 53) ≤ roundDouble x ∧ roundDouble x ≤ x * (1 + 1 / 2 ^ 53) := by
  rcases hx with h | h
  · rw [h, roundDouble_zero]; simp
  · exact roundDouble_rel x h

theorem roundDouble_zero_or_ge (x : ℚ) (a : ℤ) (ha : -1022 ≤ a)
    (hx : x = 0 ∨ (2 : ℚ) ^ a ≤ x) :
    roundDouble x = 0 ∨ (2 : ℚ) ^ a ≤ roundDouble x := by
  rcases hx with h | h
  · left; rw [h, roundDouble_zero]
  · right; exact roundDouble_ge x a ha h

/-- The running sum of `double` additions against the exact sum, for samples that are zero
or at least `2 ^ (-10)`: each addition costs at most one relative rounding error. -/
theorem foldl_roundDouble_bounds (rs : List ℚ)
    (hrs : ∀ r ∈ rs, r = 0 ∨ (2 : ℚ) ^ (-10 : ℤ) ≤ r) :
    ∀ (s S : ℚ) (n : Nat), (s = 0 ∨ (2 : ℚ) ^ (-10 : ℤ) ≤ s) →
      S * (1 - 1 / 2 ^ 53) ^ n ≤ s → s ≤ S * (1 + 1 / 2 ^ 53) ^ n →
      (rs.foldl (fun s r => roundDouble (s + r)) s = 0 ∨
        (2 : ℚ) ^ (-10 : ℤ) ≤ rs.foldl (fun s r => roundDouble (s + r)) s) ∧
      (S + rs.sum) * (1 - 1 / 2 ^ 53) ^ (n + rs.length) ≤
        rs.foldl (fun s r => roundDouble (s + r)) s ∧
      rs.foldl (fun s r => roundDouble (s + r)) s ≤
        (S + rs.sum) * (1 + 1 / 2 ^ 53) ^ (n + rs.length) := by
  induction rs with
  | nil =>
    intro s S n h0 h1 h2
    simp only [List.foldl_nil, List.sum_nil, add_zero, List.length_nil, Nat.add_zero]
    exact ⟨h0, h1, h2⟩
  | cons r rest ih =>
    intro s S n h0 h1 h2
    have hlo : (0 : ℚ) < (2 : ℚ) ^ (-10 : ℤ) := zpow_pos (by norm_num) _
    have hr := hrs r (List.mem_cons_self r rest)
    have hr0 : 0 ≤ r := by
      rcases hr with h | h
      · rw [h]
      · linarith
    have hs0 : 0 ≤ s := by
      rcases h0 with h | h
      · rw [h]
      · linarith
    have hx : s + r = 0 ∨ (2 : ℚ) ^ (-10 : ℤ) ≤ s + r := by
      rcases h0 with h | h
      · rcases hr with h' | h'
        · left; rw [h, h']; norm_num
        · right; linarith
      · right; linarith
    have hxn : s + r = 0 ∨ (2 : ℚ) ^ (-1022 : ℤ) ≤ s + r := by
      rcases hx with h | h
      · left; exact h
      · right
        exact le_trans (zpow_le_zpow_right₀ (by norm_num) (by norm_num)) h
    obtain ⟨b1, b2⟩ := roundDouble_rel_or_zero (s + r) hxn
    have hz := roundDouble_zero_or_ge (s + r) (-10) (by norm_num) hx
    have p1 : (0 : ℚ) ≤ (1 - 1 / 2 ^ 53) := by norm_num
    have p2 : (1 - 1 / 2 ^ 53 : ℚ) ≤ 1 := by norm_num
    have p3 : (1 : ℚ) ≤ (1 + 1 / 2 ^ 53) := by norm_num
    have q1 : (1 - 1 / 2 ^ 53 : ℚ) ^ n ≤ 1 := pow_le_one₀ p1 p2
    have q3 : (1 : ℚ) ≤ (1 + 1 / 2 ^ 53) ^ n := one_le_pow₀ p3
    have l1 : (S + r) * (1 - 1 / 2 ^ 53) ^ (n + 1) ≤ roundDouble (s + r) := by
      have : (S + r) * (1 - 1 / 2 ^ 53) ^ n ≤ s + r := by
        have : r * (1 - 1 / 2 ^ 53) ^ n ≤ r := by
          calc r * (1 - 1 / 2 ^ 53) ^ n ≤ r * 1 := mul_le_mul_of_nonneg_left q1 hr0
            _ = r := mul_one r
        linarith
      calc (S + r) * (1 - 1 / 2 ^ 53) ^ (n + 1)
          = (S + r) * (1 - 1 / 2 ^ 53) ^ n * (1 - 1 / 2 ^ 53) := by ring
        _ ≤ (s + r) * (1 - 1 / 2 ^ 53) := mul_le_mul_of_nonneg_right this p1
        _ ≤ roundDouble (s + r) := b1
    have l2 : roundDouble (s + r) ≤ (S + r) * (1 + 1 / 2 ^ 53) ^ (n + 1) := by
      have : s + r ≤ (S + r) * (1 + 1 / 2 ^ 53) ^ n := by
        have : r ≤ r * (1 + 1 / 2 ^ 53) ^ n := by
          calc r = r * 1 := (mul_one r).symm
            _ ≤ r * (1 + 1 / 2 ^ 53) ^ n := mul_le_mul_of_nonneg_left q3 hr0
        linarith
      calc roundDouble (s + r) ≤ (s + r) * (1 + 1 / 2 ^ 53) := b2
        _ ≤ (S + r) * (1 + 1 / 2 ^ 53) ^ n * (1 + 1 / 2 ^ 53) :=
            mul_le_mul_of_nonneg_right this (by linarith)
        _ = (S + r) * (1 + 1 / 2 ^ 53) ^ (n + 1) := by ring
    have := ih (fun x hx => hrs x (List.mem_cons_of_mem r hx)) (roundDouble (s + r))
      (S + r) (n + 1) hz l1 l2
    simp only [List.foldl_cons, List.sum_cons, List.length_cons]
    have e1 : S + (r + rest.sum) = S + r + rest.sum := by ring
    have e2 : n + (rest.length + 1) = n + 1 + rest.length := by omega
    rw [e1, e2]
    exact this

/-! ## The probe loop -/

theorem wrapInt32_of_range (x : Int) (h1 : -2147483648 ≤ x) (h2 : x ≤ 2147483647) :
    wrapInt32 x = x := by
  unfold wrapInt32
  omega

/-- The step of a probe that ends at line 173. -/
theorem probeStep_of_replied (be : Bool) (getpid : Nat) (pid : U16) (seq : Int)
    (st : LoopState) (n : Nat) (buf : List Byte) (rtt : ℚ)
    (h : replied be getpid pid seq (.received n buf rtt) = true) :
    probeStep be getpid pid seq st (.received n buf rtt) =
      { sent := st.sent + 1
        recv := st.recv + 1
        minRtt := min st.minRtt rtt
        maxRtt := max st.maxRtt rtt
        sumRtt := roundDouble (st.sumRtt + rtt)
        probes := st.probes ++ [ICMP.new be getpid pid (intToU16 seq)] } := by
  simp only [replied, Bool.and_eq_true, Bool.not_eq_true', decide_eq_false_iff_not] at h
  simp only [probeStep, if_neg h.1, h.2, Bool.not_true, Bool.false_eq_true, if_false]

/-- The step of a probe that does not end at line 173. -/
theorem probeStep_of_not_replied (be : Bool) (getpid : Nat) (pid : U16) (seq : Int)
    (st : LoopState) (ev : ProbeEvent) (h : replied be getpid pid seq ev = false) :
    probeStep be getpid pid seq st ev =
      { st with
        sent := st.sent + (if ev.sendOk then 1 else 0)
        probes := st.probes ++ [ICMP.new be getpid pid (intToU16 seq)] } := by
  cases ev with
  | sendFailed => simp [probeStep, ProbeEvent.sendOk]
  | recvFailed again => simp [probeStep, ProbeEvent.sendOk]
  | received n buf rtt =>
    simp only [replied, Bool.and_eq_false_iff, Bool.not_eq_false', decide_eq_true_eq] at h
    simp only [probeStep, ProbeEvent.sendOk, if_true]
    rcases h with h | h
    · rw [if_pos h]
    · by_cases hn : n < ipHeaderLen buf + 64
      · rw [if_pos hn]
      · rw [if_neg hn, h]; rfl

theorem repliedRtts_cons_of_replied (be : Bool) (getpid : Nat) (pid : U16) (seq : Int)
    (n : Nat) (buf : List Byte) (rtt : ℚ) (rest : List ProbeEvent)
    (h : replied be getpid pid seq (.received n buf rtt) = true) :
    repliedRtts be getpid pid (.received n buf rtt :: rest) seq =
      rtt :: repliedRtts be getpid pid rest (seq + 1) := by
  simp only [repliedRtts, h, if_true]

theorem repliedRtts_cons_of_not_replied (be : Bool) (getpid : Nat) (pid : U16) (seq : Int)
    (ev : ProbeEvent) (rest : List ProbeEvent)
    (h : replied be getpid pid seq ev = false) :
    repliedRtts be getpid pid (ev :: rest) seq =
      repliedRtts be getpid pid rest (seq + 1) := by
  cases ev with
  | sendFailed => rfl
  | recvFailed again => rfl
  | received n buf rtt => simp only [repliedRtts, h, Bool.false_eq_true, if_false]

/-- What a run of iterations does to the variables of the loop. -/
theorem applyEvents_spec (be : Bool) (getpid : Nat) (pid : U16) (evs : List ProbeEvent) :
    ∀ (seq : Int) (st : LoopState),
      (applyEvents be getpid pid evs seq st).sent =
          st.sent + (evs.countP ProbeEvent.sendOk : Nat) ∧
      (applyEvents be getpid pid evs seq st).recv =
          st.recv + ((repliedRtts be getpid pid evs seq).length : Nat) ∧
      (applyEvents be getpid pid evs seq st).sumRtt =
          (repliedRtts be getpid pid evs seq).foldl (fun s r => roundDouble (s + r))
            st.sumRtt ∧
      (applyEvents be getpid pid evs seq st).minRtt =
          (repliedRtts be getpid pid evs seq).foldl min st.minRtt ∧
      (applyEvents be getpid pid evs seq st).maxRtt =
          (repliedRtts be getpid pid evs seq).foldl max st.maxRtt ∧
      (applyEvents be getpid pid evs seq st).probes.length =
          st.probes.length + evs.length := by
  induction evs with
  | nil => intro seq st; simp [applyEvents, repliedRtts]
  | cons ev rest ih =>
    intro seq st
    obtain ⟨i1, i2, i3, i4, i5, i6⟩ := ih (seq + 1) (probeStep be getpid pid seq st ev)
    simp only [applyEvents]
    rw [i1, i2, i3, i4, i5, i6]
    by_cases h : replied be getpid pid seq ev = true
    · cases ev with
      | sendFailed => simp [replied] at h
      | recvFailed again => simp [replied] at h
      | received n buf rtt =>
        rw [probeStep_of_replied be getpid pid seq st n buf rtt h,
          repliedRtts_cons_of_replied be getpid pid seq n buf rtt rest h]
        simp [ProbeEvent.sendOk, List.countP_cons]
        refine ⟨by ring, by ring, by omega⟩
    · rw [Bool.not_eq_true] at h
      rw [probeStep_of_not_replied be getpid pid seq st ev h,
        repliedRtts_cons_of_not_replied be getpid pid seq ev rest h]
      simp [List.countP_cons]
      refine ⟨?_, by omega⟩
      cases ev.sendOk
      · simp
      · simp; ring

/-- The loop, for a count below the largest `int`: it ends once `count + 1 - seq` events
are consumed, ignores the others, and yields nothing when there are fewer. -/
theorem probeLoop_eq (be : Bool) (getpid : Nat) (pid : U16) (count : Int)
    (hc : count ≤ 2147483646) (evs : List ProbeEvent) :
    ∀ (seq : Int) (st : LoopState), 1 ≤ seq →
      probeLoop be getpid pid count evs seq st =
        if count + 1 - seq ≤ evs.length then
          some (applyEvents be getpid pid (evs.take (count + 1 - seq).toNat) seq st)
        else none := by
  induction evs with
  | nil =>
    intro seq st _
    simp only [probeLoop, List.length_nil, List.take_nil, applyEvents]
    by_cases h : seq ≤ count
    · rw [if_pos h, if_neg (by simp only [Nat.cast_zero]; omega)]
    · rw [if_neg h, if_pos (by simp only [Nat.cast_zero]; omega)]
  | cons ev rest ih =>
    intro seq st hs
    simp only [probeLoop, List.length_cons]
    by_cases h : seq ≤ count
    · rw [if_pos h, wrapInt32_of_range (seq + 1) (by omega) (by omega),
        ih (seq + 1) _ (by omega)]
      have e : (count + 1 - seq).toNat = (count + 1 - (seq + 1)).toNat + 1 := by omega
      rw [e, List.take_succ_cons, applyEvents]
      by_cases h2 : count + 1 - (seq + 1) ≤ (rest.length : Int)
      · rw [if_pos h2, if_pos (by push_cast; omega)]
      · rw [if_neg h2, if_neg (by push_cast; omega)]
    · have e : (count + 1 - seq).toNat = 0 := by omega
      rw [if_neg h, if_pos (by push_cast; omega), e, List.take_zero, applyEvents]

/-- The run of `main` on exactly `count` events. -/
theorem runProbes_eq (be : Bool) (getpid : Nat) (count : Int) (evs : List ProbeEvent)
    (h0 : 0 ≤ count) (hc : count ≤ 2147483646) (hlen : (evs.length : Int) = count) :
    runProbes be getpid count evs =
      some (applyEvents be getpid (toU16 (getpid &&& 0xFFFF)) evs 1 LoopState.init) := by
  unfold runProbes
  rw [probeLoop_eq be getpid _ count hc evs 1 _ (le_refl 1), if_pos (by omega)]
  have e : (count + 1 - 1).toNat = evs.length := by omega
  rw [e, List.take_length]

theorem ipHeaderLen_le (buf : List Byte) : ipHeaderLen buf ≤ 60 := by
  unfold ipHeaderLen
  have h : (byteAt buf 0).val &&& 0x0F = (byteAt buf 0).val % 16 :=
    Nat.and_pow_two_sub_one_eq_mod _ 4
  rw [h]
  omega

theorem length_replyBuf (id seq : U16) : (replyBuf id seq).length = 512 := by
  simp only [replyBuf, List.length_append, List.length_replicate, List.length_cons,
    List.length_nil]

/-- C6. For a receive buffer of 512 octets of which `n ≤ 512` were received, with
`ipLen = (buf[0] & 0x0F) * 4`: the datagram is rejected, not counted as a reply, whenever
`n < ipLen + 64`; whenever it passes that test, every octet `matches` reads, at offsets
`ipLen + 0, 1, 4, 5, 6, 7`, lies below `n` and so inside the buffer; and `matches` reads no
other octet of the buffer. -/
theorem ip_header_offset_in_bounds (be : Bool) (getpid : Nat) (pid : U16) (seq : Int)
    (st : LoopState) (n : Nat) (buf : List Byte) (rtt : ℚ)
    (hbuf : buf.length = 512) (hn : n ≤ 512) :
    (n < ipHeaderLen buf + 64 →
      replied be getpid pid seq (.received n buf rtt) = false ∧
      probeStep be getpid pid seq st (.received n buf rtt) =
        { st with
          sent := st.sent + 1
          probes := st.probes ++ [ICMP.new be getpid pid (intToU16 seq)] }) ∧
    (¬ n < ipHeaderLen buf + 64 →
      ∀ o ∈ matchesReadOffsets, ipHeaderLen buf + o < n ∧ ipHeaderLen buf + o < buf.length) ∧
    (∀ (req : ICMP) (buf2 : List Byte),
      (∀ o ∈ matchesReadOffsets,
        byteAt buf2 (ipHeaderLen buf + o) = byteAt buf (ipHeaderLen buf + o)) →
      req.matches (packetAt be buf2 (ipHeaderLen buf)) =
        req.matches (packetAt be buf (ipHeaderLen buf))) := by
  refine ⟨?_, ?_, ?_⟩
  · intro h
    have hr : replied be getpid pid seq (.received n buf rtt) = false := by
      simp only [replied, h, decide_True, Bool.not_true, Bool.false_and]
    refine ⟨hr, ?_⟩
    rw [probeStep_of_not_replied be getpid pid seq st _ hr]
    simp only [ProbeEvent.sendOk, if_true]
  · intro h o ho
    simp only [matchesReadOffsets, List.mem_cons, List.mem_singleton, List.mem_nil_iff,
      or_false] at ho
    omega
  · intro req buf2 h
    have h0 := h 0 (by simp [matchesReadOffsets])
    have h1 := h 1 (by simp [matchesReadOffsets])
    have h4 := h 4 (by simp [matchesReadOffsets])
    have h5 := h 5 (by simp [matchesReadOffsets])
    have h6 := h 6 (by simp [matchesReadOffsets])
    have h7 := h 7 (by simp [matchesReadOffsets])
    rw [Nat.add_zero] at h0
    simp only [ICMP.matches, packetAt, h0, h1, h4, h5, h6, h7]

theorem ip_header_offset_in_bounds_witness :
    (84 < ipHeaderLen (replyBuf 1234 1) + 64 →
      replied false 1234 1234 1 (.received 84 (replyBuf 1234 1) 1) = false ∧
      probeStep false 1234 1234 1 LoopState.init (.received 84 (replyBuf 1234 1) 1) =
        { LoopState.init with
          sent := LoopState.init.sent + 1
          probes := LoopState.init.probes ++ [ICMP.new false 1234 1234 (intToU16 1)] }) ∧
    (¬ 84 < ipHeaderLen (replyBuf 1234 1) + 64 →
      ∀ o ∈ matchesReadOffsets,
        ipHeaderLen (replyBuf 1234 1) + o < 84 ∧
          ipHeaderLen (replyBuf 1234 1) + o < (replyBuf 1234 1).length) ∧
    (∀ (req : ICMP) (buf2 : List Byte),
      (∀ o ∈ matchesReadOffsets,
        byteAt buf2 (ipHeaderLen (replyBuf 1234 1) + o) =
          byteAt (replyBuf 1234 1) (ipHeaderLen (replyBuf 1234 1) + o)) →
      req.matches (packetAt false buf2 (ipHeaderLen (replyBuf 1234 1))) =
        req.matches (packetAt false (replyBuf 1234 1) (ipHeaderLen (replyBuf 1234 1)))) :=
  ip_header_offset_in_bounds false 1234 1234 1 LoopState.init 84 (replyBuf 1234 1) 1
    (length_replyBuf 1234 1) (by decide)

theorem replied_of_discarded (be : Bool) (getpid : Nat) (pid : U16) (seq : Int)
    (ev : ProbeEvent) (h : discarded be getpid pid seq ev = true) :
    replied be getpid pid seq ev = false ∧ ev.sendOk = true := by
  cases ev with
  | sendFailed => simp [discarded] at h
  | recvFailed again => exact ⟨rfl, rfl⟩
  | received n buf rtt =>
    refine ⟨?_, rfl⟩
    simp only [discarded, Bool.or_eq_true, decide_eq_true_eq, Bool.not_eq_true'] at h
    simp only [replied, Bool.and_eq_false_iff, Bool.not_eq_false', decide_eq_true_eq]
    exact h

/-- C9. For every state of the counters and every probe whose send succeeds but whose
receive step yields a timeout, a receive error, a datagram shorter than `ipLen + 64` or a
datagram whose ICMP message does not match the request, the step adds exactly 1 to `sent`
and leaves `recv`, `minRtt`, `maxRtt` and `sumRtt` as they were. -/
theorem discarded_reply_is_loss (be : Bool) (getpid : Nat) (pid : U16) (seq : Int)
    (st : LoopState) (ev : ProbeEvent) (h : discarded be getpid pid seq ev = true) :
    (probeStep be getpid pid seq st ev).sent = st.sent + 1 ∧
    (probeStep be getpid pid seq st ev).recv = st.recv ∧
    (probeStep be getpid pid seq st ev).minRtt = st.minRtt ∧
    (probeStep be getpid pid seq st ev).maxRtt = st.maxRtt ∧
    (probeStep be getpid pid seq st ev).sumRtt = st.sumRtt := by
  obtain ⟨hr, hs⟩ := replied_of_discarded be getpid pid seq ev h
  rw [probeStep_of_not_replied be getpid pid seq st ev hr, hs]
  exact ⟨rfl, rfl, rfl, rfl, rfl⟩

theorem discarded_reply_is_loss_witness :
    (probeStep false 1234 1234 1 LoopState.init
      (.received 84 (replyBuf 1234 2) 5)).sent = LoopState.init.sent + 1 ∧
    (probeStep false 1234 1234 1 LoopState.init
      (.received 84 (replyBuf 1234 2) 5)).recv = LoopState.init.recv ∧
    (probeStep false 1234 1234 1 LoopState.init
      (.received 84 (replyBuf 1234 2) 5)).minRtt = LoopState.init.minRtt ∧
    (probeStep false 1234 1234 1 LoopState.init
      (.received 84 (replyBuf 1234 2) 5)).maxRtt = LoopState.init.maxRtt ∧
    (probeStep false 1234 1234 1 LoopState.init
      (.received 84 (replyBuf 1234 2) 5)).sumRtt = LoopState.init.sumRtt :=
  discarded_reply_is_loss false 1234 1234 1 LoopState.init
    (.received 84 (replyBuf 1234 2) 5) (by decide)

/-- C10. A probe step whose send fails leaves `sent`, `recv`, `minRtt`, `maxRtt` and
`sumRtt` as they were, and the loop goes on with the next sequence number; for every
`count ≥ 0` below the largest `int` the loop ends after exactly `count` probe steps,
whatever the events are: on `count` events it yields a state in which `count` requests
were built, and on fewer events it has not ended. -/
theorem send_failure_not_counted (be : Bool) (getpid : Nat) (count : Int)
    (evs : List ProbeEvent) (h0 : 0 ≤ count) (hc : count < 2147483647)
    (hlen : (evs.length : Int) = count) :
    (∀ (pid : U16) (seq : Int) (st : LoopState),
      (probeStep be getpid pid seq st .sendFailed).sent = st.sent ∧
      (probeStep be getpid pid seq st .sendFailed).recv = st.recv ∧
      (probeStep be getpid pid seq st .sendFailed).minRtt = st.minRtt ∧
      (probeStep be getpid pid seq st .sendFailed).maxRtt = st.maxRtt ∧
      (probeStep be getpid pid seq st .sendFailed).sumRtt = st.sumRtt) ∧
    (∀ (pid : U16) (seq : Int) (st : LoopState) (rest : List ProbeEvent),
      1 ≤ seq → seq ≤ count →
      probeLoop be getpid pid count (.sendFailed :: rest) seq st =
        probeLoop be getpid pid count rest (seq + 1)
          (probeStep be getpid pid seq st .sendFailed)) ∧
    (∃ st : LoopState, runProbes be getpid count evs = some st ∧
      (st.probes.length : Int) = count) ∧
    (∀ evs2 : List ProbeEvent, (evs2.length : Int) < count →
      runProbes be getpid count evs2 = none) := by
  refine ⟨fun _ _ _ => ⟨rfl, rfl, rfl, rfl, rfl⟩, ?_, ?_, ?_⟩
  · intro pid seq st rest h1 h2
    simp only [probeLoop, if_pos h2]
    rw [wrapInt32_of_range (seq + 1) (by omega) (by omega)]
  · refine ⟨_, runProbes_eq be getpid count evs h0 (by omega) hlen, ?_⟩
    rw [(applyEvents_spec be getpid _ evs 1 LoopState.init).2.2.2.2.2]
    simp only [LoopState.init, List.length_nil, Nat.zero_add]
    exact hlen
  · intro evs2 h2
    unfold runProbes
    rw [probeLoop_eq be getpid _ count (by omega) evs2 1 _ (le_refl 1),
      if_neg (by omega)]

theorem send_failure_not_counted_witness :
    (∀ (pid : U16) (seq : Int) (st : LoopState),
      (probeStep false 1234 pid seq st .sendFailed).sent = st.sent ∧
      (probeStep false 1234 pid seq st .sendFailed).recv = st.recv ∧
      (probeStep false 1234 pid seq st .sendFailed).minRtt = st.minRtt ∧
      (probeStep false 1234 pid seq st .sendFailed).maxRtt = st.maxRtt ∧
      (probeStep false 1234 pid seq st .sendFailed).sumRtt = st.sumRtt) ∧
    (∀ (pid : U16) (seq : Int) (st : LoopState) (rest : List ProbeEvent),
      1 ≤ seq → seq ≤ 3 →
      probeLoop false 1234 pid 3 (.sendFailed :: rest) seq st =
        probeLoop false 1234 pid 3 rest (seq + 1)
          (probeStep false 1234 pid seq st .sendFailed)) ∧
    (∃ st : LoopState,
      runProbes false 1234 3
        [.sendFailed, .recvFailed true, .received 84 (replyBuf 1234 3) 2] = some st ∧
      (st.probes.length : Int) = 3) ∧
    (∀ evs2 : List ProbeEvent, (evs2.length : Int) < 3 →
      runProbes false 1234 3 evs2 = none) :=
  send_failure_not_counted false 1234 3
    [.sendFailed, .recvFailed true, .received 84 (replyBuf 1234 3) 2]
    (by decide) (by decide) (by decide)

theorem repliedRtts_length_le (be : Bool) (getpid : Nat) (pid : U16)
    (evs : List ProbeEvent) :
    ∀ seq : Int, (repliedRtts be getpid pid evs seq).length ≤ evs.countP ProbeEvent.sendOk := by
  induction evs with
  | nil => intro seq; simp [repliedRtts]
  | cons ev rest ih =>
    intro seq
    have := ih (seq + 1)
    cases ev with
    | sendFailed => simp only [repliedRtts, List.countP_cons]; omega
    | recvFailed again => simp only [repliedRtts, List.countP_cons]; omega
    | received n buf rtt =>
      simp only [repliedRtts, List.countP_cons, ProbeEvent.sendOk, if_true]
      split
      · simp only [List.length_cons]; omega
      · omega

theorem lossPercent_of_fit (st : LoopState) (h0 : 0 < st.sent)
    (h2 : st.recv ≤ st.sent) (h3 : st.sent ≤ 2147483647)
    (hfit : (st.sent - st.recv) * 100 ≤ 2147483647) :
    lossPercent st = (st.sent - st.recv) * 100 / st.sent := by
  unfold lossPercent
  rw [wrapInt32_of_range (st.sent - st.recv) (by omega) (by omega),
    wrapInt32_of_range _ (by omega) hfit]
  exact Int.tdiv_eq_ediv (by omega) (by omega)

/-- C7 (as amended). For every `count` with `1 ≤ count` below the largest `int` and every
sequence of `count` events in which every send succeeds and exactly `k` probes receive a
matching reply, provided `(count - k) * 100` fits an `int`, the loop ends with
`sent = count` and `recv = k`, and the summary reports the loss
`(count - k) * 100 / count` with integer truncation: 100 when `k = 0`, 0 when
`k = count`. -/
theorem loss_accounting (be : Bool) (getpid : Nat) (count : Int) (evs : List ProbeEvent)
    (k : Nat) (h1 : 1 ≤ count) (hc : count < 2147483647)
    (hlen : (evs.length : Int) = count)
    (hsend : ∀ ev ∈ evs, ev.sendOk = true)
    (hk : (repliedRtts be getpid (toU16 (getpid &&& 0xFFFF)) evs 1).length = k)
    (hfit : (count - k) * 100 ≤ 2147483647) :
    ∃ (st : LoopState) (s : Summary),
      runProbes be getpid count evs = some st ∧ st.sent = count ∧ st.recv = k ∧
      summary st = some s ∧ s.transmitted = count ∧ s.received = k ∧
      s.loss = (count - k) * 100 / count ∧
      (k = 0 → s.loss = 100) ∧ ((k : Int) = count → s.loss = 0) := by
  obtain ⟨e1, e2, -⟩ :=
    applyEvents_spec be getpid (toU16 (getpid &&& 0xFFFF)) evs 1 LoopState.init
  have hle := repliedRtts_length_le be getpid (toU16 (getpid &&& 0xFFFF)) evs 1
  rw [List.countP_eq_length.mpr hsend] at e1 hle
  rw [hk] at e2 hle
  have i1 : LoopState.init.sent = 0 := rfl
  have i2 : LoopState.init.recv = 0 := rfl
  rw [i1, zero_add, hlen] at e1
  rw [i2, zero_add] at e2
  have hkc : (k : Int) ≤ count := by omega
  have hloss := lossPercent_of_fit
    (applyEvents be getpid (toU16 (getpid &&& 0xFFFF)) evs 1 LoopState.init)
    (by omega) (by omega) (by omega) (by rw [e1, e2]; exact hfit)
  rw [e1, e2] at hloss
  have hs : (applyEvents be getpid (toU16 (getpid &&& 0xFFFF)) evs 1 LoopState.init).sent
      ≠ 0 := by omega
  have hsum : summary
      (applyEvents be getpid (toU16 (getpid &&& 0xFFFF)) evs 1 LoopState.init) = some _ :=
    if_pos hs
  refine ⟨_, _, runProbes_eq be getpid count evs (by omega) (by omega) hlen, e1, e2, hsum,
    e1, e2, hloss, ?_, ?_⟩
  · intro hk0
    show lossPercent _ = 100
    rw [hloss, hk0]
    simp only [Nat.cast_zero, sub_zero]
    exact Int.mul_ediv_cancel_left 100 (by omega)
  · intro hkc2
    show lossPercent _ = 0
    rw [hloss, hkc2]
    simp

theorem loss_accounting_witness :
    ∃ (st : LoopState) (s : Summary),
      runProbes false 1234 4
        [.received 84 (replyBuf 1234 1) 1, .recvFailed true,
          .received 84 (replyBuf 1234 3) 3, .received 84 (replyBuf 1234 9) 4] = some st ∧
      st.sent = 4 ∧ st.recv = (2 : Nat) ∧
      summary st = some s ∧ s.transmitted = 4 ∧ s.received = (2 : Nat) ∧
      s.loss = (4 - (2 : Nat)) * 100 / 4 ∧
      ((2 : Nat) = 0 → s.loss = 100) ∧ (((2 : Nat) : Int) = 4 → s.loss = 0) :=
  loss_accounting false 1234 4
    [.received 84 (replyBuf 1234 1) 1, .recvFailed true,
      .received 84 (replyBuf 1234 3) 3, .received 84 (replyBuf 1234 9) 4]
    2 (by decide) (by decide) (by decide) (by decide) (by decide) (by decide)

theorem repliedRtts_replicate_recvFailed (be : Bool) (getpid : Nat) (pid : U16)
    (again : Bool) (n : Nat) :
    ∀ seq : Int,
      repliedRtts be getpid pid (List.replicate n (.recvFailed again)) seq = [] := by
  induction n with
  | zero => intro seq; rfl
  | succ n ih =>
    intro seq
    rw [List.replicate_succ, repliedRtts_cons_of_not_replied be getpid pid seq (.recvFailed again) _ rfl,
      ih]

theorem run_all_timeouts (be : Bool) (getpid : Nat) (n : Nat) (hn : (n : Int) ≤ 2147483646) :
    ∃ st : LoopState,
      runProbes be getpid n (List.replicate n (.recvFailed true)) = some st ∧
      st.sent = n ∧ st.recv = 0 := by
  obtain ⟨e1, e2, -⟩ := applyEvents_spec be getpid (toU16 (getpid &&& 0xFFFF))
    (List.replicate n (.recvFailed true)) 1 LoopState.init
  rw [repliedRtts_replicate_recvFailed] at e2
  rw [List.countP_replicate] at e1
  refine ⟨_, runProbes_eq be getpid n _ (by omega) hn (by rw [List.length_replicate]),
    ?_, ?_⟩
  · rw [e1]
    have i1 : LoopState.init.sent = 0 := rfl
    simp only [i1, ProbeEvent.sendOk, if_true, zero_add]
  · rw [e2]
    have i2 : LoopState.init.recv = 0 := rfl
    simp only [i2, List.length_nil, Nat.cast_zero, zero_add]

theorem wrapInt32_range (x : Int) :
    -2147483648 ≤ wrapInt32 x ∧ wrapInt32 x ≤ 2147483647 := by
  unfold wrapInt32
  omega

/-- With `count` the largest `int`, the loop has not ended on any finite sequence of
events: the increment of `seq` wraps and `seq <= count` stays true. -/
theorem probeLoop_int_max (be : Bool) (getpid : Nat) (pid : U16) (evs : List ProbeEvent) :
    ∀ (seq : Int) (st : LoopState), seq ≤ 2147483647 →
      probeLoop be getpid pid 2147483647 evs seq st = none := by
  induction evs with
  | nil => intro seq st h; rw [probeLoop, if_pos h]
  | cons ev rest ih =>
    intro seq st h
    rw [probeLoop, if_pos h]
    exact ih _ _ (wrapInt32_range (seq + 1)).2

/-- C7, counterexample. With `count = 21474837` and every probe timing out, every send
succeeds and no probe is replied to, so the claimed loss is 100; the loop ends with
`sent = 21474837` and `recv = 0`, the product `(sent - recv) * 100` exceeds the largest
`int`, and the loss reported is -99. With `count = 2147483647`, the largest `int`, the loop
has not ended after `count` probes. -/
theorem loss_overflow :
    (∃ st : LoopState,
      runProbes false 1234 21474837 (List.replicate 21474837 (.recvFailed true)) = some st ∧
      st.sent = 21474837 ∧ st.recv = 0 ∧
      (summary st).map Summary.loss = some (-99)) ∧
    runProbes false 1234 2147483647 (List.replicate 2147483647 (.recvFailed true)) = none := by
  refine ⟨?_, probeLoop_int_max false 1234 _ _ 1 _ (by decide)⟩
  obtain ⟨st, h, hs, hr⟩ := run_all_timeouts false 1234 21474837 (by decide)
  have hs2 : st.sent = 21474837 := hs
  refine ⟨st, h, hs2, hr, ?_⟩
  have hs0 : st.sent ≠ 0 := by rw [hs2]; decide
  rw [summary, if_pos hs0]
  simp only [Option.map_some', lossPercent, hs2, hr]
  decide

theorem foldl_min_spec (rs : List ℚ) :
    ∀ a : ℚ, rs.foldl min a ≤ a ∧ (∀ r ∈ rs, rs.foldl min a ≤ r) ∧
      (rs.foldl min a = a ∨ rs.foldl min a ∈ rs) := by
  induction rs with
  | nil => intro a; simp
  | cons x xs ih =>
    intro a
    obtain ⟨h1, h2, h3⟩ := ih (min a x)
    simp only [List.foldl_cons, List.mem_cons]
    refine ⟨le_trans h1 (min_le_left a x), ?_, ?_⟩
    · intro r hr
      rcases hr with rfl | hr
      · exact le_trans h1 (min_le_right a r)
      · exact h2 r hr
    · rcases h3 with h | h
      · rcases min_choice a x with e | e
        · left; rw [h, e]
        · right; left; rw [h, e]
      · right; right; exact h

theorem foldl_max_spec (rs : List ℚ) :
    ∀ a : ℚ, a ≤ rs.foldl max a ∧ (∀ r ∈ rs, r ≤ rs.foldl max a) ∧
      (rs.foldl max a = a ∨ rs.foldl max a ∈ rs) := by
  induction rs with
  | nil => intro a; simp
  | cons x xs ih =>
    intro a
    obtain ⟨h1, h2, h3⟩ := ih (max a x)
    simp only [List.foldl_cons, List.mem_cons]
    refine ⟨le_trans (le_max_left a x) h1, ?_, ?_⟩
    · intro r hr
      rcases hr with rfl | hr
      · exact le_trans (le_max_right a r) h1
      · exact h2 r hr
    · rcases h3 with h | h
      · rcases max_choice a x with e | e
        · left; rw [h, e]
        · right; left; rw [h, e]
      · right; right; exact h

/-! ## Round-trip times -/

theorem pow_one_sub_ge (n : Nat) : (1 : ℚ) - n * (1 / 2 ^ 53) ≤ (1 - 1 / 2 ^ 53) ^ n := by
  have h := one_add_mul_le_pow (show (-2 : ℚ) ≤ -(1 / 2 ^ 53) by norm_num) n
  have e1 : (1 : ℚ) + (n : ℚ) * -(1 / 2 ^ 53) = 1 - n * (1 / 2 ^ 53) := by ring
  have e2 : (1 : ℚ) + -(1 / 2 ^ 53) = 1 - 1 / 2 ^ 53 := by ring
  rw [e1, e2] at h
  exact h

theorem pow_one_add_le (n : Nat) (hn : (n : ℚ) ≤ 2 ^ 52) :
    (1 + 1 / 2 ^ 53 : ℚ) ^ n ≤ 1 + 2 * n * (1 / 2 ^ 53) := by
  induction n with
  | zero => simp
  | succ n ih =>
    have hn' : (n : ℚ) ≤ 2 ^ 52 := by
      push_cast at hn
      linarith
    have h := ih hn'
    have hnn : (0 : ℚ) ≤ n := Nat.cast_nonneg n
    rw [pow_succ]
    push_cast
    have h2 : (1 + 1 / 2 ^ 53 : ℚ) ^ n * (1 + 1 / 2 ^ 53) ≤
        (1 + 2 * n * (1 / 2 ^ 53)) * (1 + 1 / 2 ^ 53) :=
      mul_le_mul_of_nonneg_right h (by norm_num)
    have h3 : (1 + 2 * (n : ℚ) * (1 / 2 ^ 53)) * (1 + 1 / 2 ^ 53) ≤
        1 + 2 * ((n : ℚ) + 1) * (1 / 2 ^ 53) := by
      have : (1 + 2 * (n : ℚ) * (1 / 2 ^ 53)) * (1 + 1 / 2 ^ 53) =
          1 + 2 * ((n : ℚ) + 1) * (1 / 2 ^ 53)
            - (1 / 2 ^ 53) * (1 - 2 * n * (1 / 2 ^ 53)) := by ring
      rw [this]
      have : (0 : ℚ) ≤ (1 / 2 ^ 53) * (1 - 2 * n * (1 / 2 ^ 53)) := by
        apply mul_nonneg (by norm_num)
        have : 2 * (n : ℚ) * (1 / 2 ^ 53) ≤ 1 := by
          have : 2 * (n : ℚ) * (1 / 2 ^ 53) ≤ 2 * 2 ^ 52 * (1 / 2 ^ 53) := by
            apply mul_le_mul_of_nonneg_right _ (by norm_num)
            linarith
          norm_num at this ⊢
          linarith
        linarith
      linarith
    linarith

/-- From the accumulated relative errors to a tolerance: for at most `2 ^ 31` operations
the relative error is at most `2 ^ (-21)`. -/
theorem tolerance_of_pow_bounds (a A : ℚ) (n : Nat) (hA : 0 ≤ A) (hn : (n : ℚ) ≤ 2 ^ 31)
    (h1 : A * (1 - 1 / 2 ^ 53) ^ n ≤ a) (h2 : a ≤ A * (1 + 1 / 2 ^ 53) ^ n) :
    |a - A| ≤ A / 2 ^ 21 := by
  have b1 := pow_one_sub_ge n
  have b2 := pow_one_add_le n (le_trans hn (by norm_num))
  have c1 : A * (1 - n * (1 / 2 ^ 53)) ≤ a :=
    le_trans (mul_le_mul_of_nonneg_left b1 hA) h1
  have c2 : a ≤ A * (1 + 2 * n * (1 / 2 ^ 53)) :=
    le_trans h2 (mul_le_mul_of_nonneg_left b2 hA)
  have d1 : A * ((n : ℚ) * (1 / 2 ^ 53)) ≤ A * (2 ^ 31 * (1 / 2 ^ 53)) :=
    mul_le_mul_of_nonneg_left (mul_le_mul_of_nonneg_right hn (by norm_num)) hA
  have e : A / 2 ^ 21 = A * (2 * (2 ^ 31 * (1 / 2 ^ 53))) := by
    norm_num
    ring
  rw [abs_le, e]
  constructor <;> linarith

/-- The rounding of a value whose binary exponent `e` is known. -/
theorem roundDouble_eval (x : ℚ) (e : ℤ) (he : -1022 ≤ e) (h1 : (2 : ℚ) ^ e ≤ x)
    (h2 : x < (2 : ℚ) ^ (e + 1)) :
    roundDouble x = (roundHalfEven (x / (2 : ℚ) ^ (e - 52)) : ℚ) * (2 : ℚ) ^ (e - 52) := by
  have hpos : 0 < x := lt_of_lt_of_le (zpow_pos (by norm_num) _) h1
  have hlog : Int.log 2 x = e := by
    apply le_antisymm
    · have := (Int.lt_zpow_iff_log_lt (b := 2) (by norm_num) hpos (x := e + 1)).mp
        (by exact_mod_cast h2)
      omega
    · exact (Int.zpow_le_iff_le_log (b := 2) (by norm_num) hpos).mp (by exact_mod_cast h1)
  have hn : (2 : ℚ) ^ (-1022 : ℤ) ≤ x :=
    le_trans (zpow_le_zpow_right₀ (by norm_num) he) h1
  have hu := (ulp_of_normal x hn).1
  rw [hlog] at hu
  unfold roundDouble
  rw [hu]

theorem roundHalfEven_intCast (m : Int) : roundHalfEven (m : ℚ) = m := by
  unfold roundHalfEven
  simp

/-- A value with a significand of 53 bits and an exponent of the range of `double` is a
`double`: rounding leaves it as it is. -/
theorem roundDouble_of_significand (m t : Int) (hm1 : 2 ^ 52 ≤ m) (hm2 : m < 2 ^ 53)
    (ht : -1074 ≤ t) :
    roundDouble ((m : ℚ) * (2 : ℚ) ^ t) = (m : ℚ) * (2 : ℚ) ^ t := by
  have hq : (0 : ℚ) < (2 : ℚ) ^ t := zpow_pos (by norm_num) _
  have hm1' : ((2 : ℚ) ^ (52 : ℤ)) ≤ (m : ℚ) := by
    have : ((2 ^ 52 : Int) : ℚ) ≤ (m : ℚ) := by exact_mod_cast hm1
    norm_num at this ⊢
    exact this
  have hm2' : (m : ℚ) < ((2 : ℚ) ^ (53 : ℤ)) := by
    have : (m : ℚ) < ((2 ^ 53 : Int) : ℚ) := by exact_mod_cast hm2
    norm_num at this ⊢
    exact this
  have h1 : (2 : ℚ) ^ (t + 52) ≤ (m : ℚ) * (2 : ℚ) ^ t := by
    rw [zpow_add₀ (by norm_num), mul_comm]
    exact mul_le_mul_of_nonneg_right hm1' (le_of_lt hq)
  have h2 : (m : ℚ) * (2 : ℚ) ^ t < (2 : ℚ) ^ (t + 52 + 1) := by
    have e : (2 : ℚ) ^ (t + 52 + 1) = (2 : ℚ) ^ (53 : ℤ) * (2 : ℚ) ^ t := by
      rw [← zpow_add₀ (by norm_num)]
      congr 1
      ring
    rw [e]
    exact mul_lt_mul_of_pos_right hm2' hq
  rw [roundDouble_eval _ (t + 52) (by omega) h1 h2]
  have e : t + 52 - 52 = t := by ring
  rw [e, mul_div_assoc, div_self (ne_of_gt hq), mul_one, roundHalfEven_intCast]

/-- The running `double` sum of samples that are zero or between `2 ^ (-10)` and `2 ^ 63`,
at most `2 ^ 31` in number, stays far below `2 ^ 1024`: no addition overflows. -/
theorem doubleSum_le (l : List ℚ) (hrange : ∀ r ∈ l, r = 0 ∨ (2 : ℚ) ^ (-10 : ℤ) ≤ r)
    (hhi : ∀ r ∈ l, r ≤ 2 ^ 63) (hlen : (l.length : ℚ) ≤ 2 ^ 31) :
    l.foldl (fun s r => roundDouble (s + r)) 0 ≤ 2 ^ 95 := by
  obtain ⟨-, -, h⟩ := foldl_roundDouble_bounds l hrange 0 0 0 (Or.inl rfl)
    (by simp) (by simp)
  rw [zero_add, Nat.zero_add] at h
  have hsum : l.sum ≤ l.length • (2 ^ 63 : ℚ) := List.sum_le_card_nsmul l _ hhi
  rw [nsmul_eq_mul] at hsum
  have hsum2 : l.sum ≤ 2 ^ 31 * 2 ^ 63 :=
    le_trans hsum (mul_le_mul_of_nonneg_right hlen (by norm_num))
  have hpos : 0 ≤ l.sum := by
    apply List.sum_nonneg
    intro r hr
    rcases hrange r hr with h' | h'
    · rw [h']
    · exact le_trans (le_of_lt (zpow_pos (by norm_num) _)) h'
  have hp := pow_one_add_le l.length (le_trans hlen (by norm_num))
  have h2 : (1 + 2 * (l.length : ℚ) * (1 / 2 ^ 53)) ≤ 2 := by
    have : 2 * (l.length : ℚ) * (1 / 2 ^ 53) ≤ 2 * 2 ^ 31 * (1 / 2 ^ 53) :=
      mul_le_mul_of_nonneg_right (by linarith) (by norm_num)
    norm_num at this ⊢
    linarith
  calc l.foldl (fun s r => roundDouble (s + r)) 0
      ≤ l.sum * (1 + 1 / 2 ^ 53) ^ l.length := h
    _ ≤ l.sum * 2 := mul_le_mul_of_nonneg_left (le_trans hp h2) hpos
    _ ≤ 2 ^ 31 * 2 ^ 63 * 2 := mul_le_mul_of_nonneg_right hsum2 (by norm_num)
    _ = 2 ^ 95 := by norm_num

/-- The `double` average of a `double` sum against the exact average. -/
theorem doubleAvg_bounds (rs : List ℚ) (hne : rs ≠ [])
    (hrange : ∀ r ∈ rs, r = 0 ∨ (2 : ℚ) ^ (-10 : ℤ) ≤ r)
    (hlen : (rs.length : ℚ) + 1 ≤ 2 ^ 31) :
    rs.sum / (rs.length : ℚ) * (1 - 1 / 2 ^ 53) ^ (rs.length + 1) ≤
      roundDouble (rs.foldl (fun s r => roundDouble (s + r)) 0 / (rs.length : ℚ)) ∧
    roundDouble (rs.foldl (fun s r => roundDouble (s + r)) 0 / (rs.length : ℚ)) ≤
      rs.sum / (rs.length : ℚ) * (1 + 1 / 2 ^ 53) ^ (rs.length + 1) ∧
    |roundDouble (rs.foldl (fun s r => roundDouble (s + r)) 0 / (rs.length : ℚ)) -
        rs.sum / (rs.length : ℚ)| ≤ rs.sum / (rs.length : ℚ) / 2 ^ 21 := by
  obtain ⟨hz, h1, h2⟩ := foldl_roundDouble_bounds rs hrange 0 0 0 (Or.inl rfl)
    (by simp) (by simp)
  rw [zero_add, Nat.zero_add] at h1 h2
  have hk : (1 : ℚ) ≤ (rs.length : ℚ) := by
    have : 0 < rs.length := List.length_pos.mpr hne
    exact_mod_cast this
  have hk0 : (0 : ℚ) < (rs.length : ℚ) := by linarith
  have hpos : 0 ≤ rs.sum := by
    apply List.sum_nonneg
    intro r hr
    rcases hrange r hr with h' | h'
    · rw [h']
    · exact le_trans (le_of_lt (zpow_pos (by norm_num) _)) h'
  have hA : 0 ≤ rs.sum / (rs.length : ℚ) := div_nonneg hpos (le_of_lt hk0)
  generalize rs.foldl (fun s r => roundDouble (s + r)) 0 = D at hz h1 h2 ⊢
  have hx : D / (rs.length : ℚ) = 0 ∨ (2 : ℚ) ^ (-1022 : ℤ) ≤ D / (rs.length : ℚ) := by
    rcases hz with h | h
    · left; rw [h, zero_div]
    · right
      rw [le_div_iff₀ hk0]
      have a1 : (2 : ℚ) ^ (-1022 : ℤ) * (rs.length : ℚ) ≤ (2 : ℚ) ^ (-1022 : ℤ) * 2 ^ 31 :=
        mul_le_mul_of_nonneg_left (by linarith) (le_of_lt (zpow_pos (by norm_num) _))
      have a2 : (2 : ℚ) ^ (-1022 : ℤ) * 2 ^ 31 ≤ (2 : ℚ) ^ (-10 : ℤ) := by
        have : (2 : ℚ) ^ (-1022 : ℤ) * 2 ^ 31 = (2 : ℚ) ^ (-991 : ℤ) := by
          rw [← zpow_natCast, ← zpow_add₀ (by norm_num)]
          norm_num
        rw [this]
        exact zpow_le_zpow_right₀ (by norm_num) (by norm_num)
      linarith
  obtain ⟨b1, b2⟩ := roundDouble_rel_or_zero _ hx
  have p1 : (0 : ℚ) ≤ (1 - 1 / 2 ^ 53) := by norm_num
  have l1 : rs.sum / (rs.length : ℚ) * (1 - 1 / 2 ^ 53) ^ (rs.length + 1) ≤
      roundDouble (D / (rs.length : ℚ)) := by
    calc rs.sum / (rs.length : ℚ) * (1 - 1 / 2 ^ 53) ^ (rs.length + 1)
        = rs.sum * (1 - 1 / 2 ^ 53) ^ rs.length / (rs.length : ℚ) * (1 - 1 / 2 ^ 53) := by
          ring
      _ ≤ D / (rs.length : ℚ) * (1 - 1 / 2 ^ 53) :=
          mul_le_mul_of_nonneg_right
            ((div_le_div_iff_of_pos_right hk0).mpr h1) p1
      _ ≤ roundDouble (D / (rs.length : ℚ)) := b1
  have l2 : roundDouble (D / (rs.length : ℚ)) ≤
      rs.sum / (rs.length : ℚ) * (1 + 1 / 2 ^ 53) ^ (rs.length + 1) := by
    calc roundDouble (D / (rs.length : ℚ)) ≤ D / (rs.length : ℚ) * (1 + 1 / 2 ^ 53) := b2
      _ ≤ rs.sum * (1 + 1 / 2 ^ 53) ^ rs.length / (rs.length : ℚ) * (1 + 1 / 2 ^ 53) :=
          mul_le_mul_of_nonneg_right
            ((div_le_div_iff_of_pos_right hk0).mpr h2) (by norm_num)
      _ = rs.sum / (rs.length : ℚ) * (1 + 1 / 2 ^ 53) ^ (rs.length + 1) := by ring
  refine ⟨l1, l2, ?_⟩
  exact tolerance_of_pow_bounds _ _ (rs.length + 1) hA (by push_cast; exact hlen) l1 l2

theorem roundHalfEven_of_lt_half (f : Int) (y : ℚ) (h1 : (f : ℚ) ≤ y)
    (h2 : y < (f : ℚ) + 1 / 2) : roundHalfEven y = f := by
  have hfl : ⌊y⌋ = f := by
    rw [Int.floor_eq_iff]
    constructor <;> linarith
  unfold roundHalfEven
  simp only [hfl]
  rw [if_pos (by linarith)]

/-- Every value of `rtt` for a non-negative count of microseconds of 63 bits is zero or
between `2 ^ (-10)` and `2 ^ 63`. -/
theorem rttOfMicros_range (us : Int) (h0 : 0 ≤ us) (h1 : us < 2 ^ 63) :
    (rttOfMicros us = 0 ∨ (2 : ℚ) ^ (-10 : ℤ) ≤ rttOfMicros us) ∧
      rttOfMicros us ≤ 2 ^ 63 := by
  unfold rttOfMicros
  rcases eq_or_lt_of_le h0 with h | h
  · subst h
    rw [Int.cast_zero, roundDouble_zero, zero_div, roundDouble_zero]
    exact ⟨Or.inl rfl, by norm_num⟩
  · have hq1 : (1 : ℚ) ≤ (us : ℚ) := by exact_mod_cast h
    have hq2 : (us : ℚ) ≤ 2 ^ 63 := by
      have : us ≤ 2 ^ 63 := le_of_lt h1
      exact_mod_cast this
    have g1 : (2 : ℚ) ^ (0 : ℤ) ≤ roundDouble (us : ℚ) :=
      roundDouble_ge _ 0 (by norm_num) (by norm_num; exact hq1)
    have g2 := (roundDouble_rel (us : ℚ)
      (le_trans (by norm_num) hq1)).2
    have a1 : (2 : ℚ) ^ (-10 : ℤ) ≤ roundDouble (us : ℚ) / 1000 := by
      have : (1 : ℚ) ≤ roundDouble (us : ℚ) := by norm_num at g1; exact g1
      have e : (2 : ℚ) ^ (-10 : ℤ) = 1 / 1024 := by norm_num
      rw [e]
      linarith
    have g3 := roundDouble_ge _ (-10) (by norm_num) a1
    have g4 := (roundDouble_rel (roundDouble (us : ℚ) / 1000)
      (le_trans (zpow_le_zpow_right₀ (by norm_num) (by norm_num)) a1)).2
    refine ⟨Or.inr g3, ?_⟩
    have b1 : roundDouble (us : ℚ) ≤ 2 ^ 63 * (1 + 1 / 2 ^ 53) :=
      le_trans g2 (mul_le_mul_of_nonneg_right hq2 (by norm_num))
    calc roundDouble (roundDouble (us : ℚ) / 1000)
        ≤ roundDouble (us : ℚ) / 1000 * (1 + 1 / 2 ^ 53) := g4
      _ ≤ 2 ^ 63 * (1 + 1 / 2 ^ 53) / 1000 * (1 + 1 / 2 ^ 53) :=
          mul_le_mul_of_nonneg_right
            ((div_le_div_iff_of_pos_right (by norm_num)).mpr b1) (by norm_num)
      _ ≤ 2 ^ 63 := by norm_num

/-- C8 (as amended). For every run of the loop whose replied probes recorded a non-empty
list of round-trip times `r1..rk`, each zero or between `2 ^ (-10)` and `2 ^ 63`
milliseconds, of which at least one is at most `1e9`, the initial value of `minRtt`: after
the loop `minRtt` is the least and `maxRtt` the greatest of the samples, exactly; the
average of the summary is the `double` quotient by `k` of the running `double` sum of the
samples, and it agrees with `(r1 + ... + rk) / k` within the relative error
`(1 + 2 ^ (-53)) ^ (k + 1) - 1`, which is at most `2 ^ (-21)`; and no running sum of these
additions comes near the overflow threshold `2 ^ 1024`. The range is that of every value
line 156 can record: for a non-negative count of microseconds of 63 bits, `rtt` is zero or
between `2 ^ (-10)` and `2 ^ 63`. -/
theorem rtt_aggregation (be : Bool) (getpid : Nat) (count : Int) (evs : List ProbeEvent)
    (rs : List ℚ) (h0 : 0 ≤ count) (hc : count < 2147483647)
    (hlen : (evs.length : Int) = count)
    (hrs : repliedRtts be getpid (toU16 (getpid &&& 0xFFFF)) evs 1 = rs)
    (hne : rs ≠ []) (hrange : ∀ r ∈ rs, r = 0 ∨ (2 : ℚ) ^ (-10 : ℤ) ≤ r)
    (hhi : ∀ r ∈ rs, r ≤ 2 ^ 63) (hcap : ∃ r ∈ rs, r ≤ 1000000000) :
    ∃ (st : LoopState) (s : Summary),
      runProbes be getpid count evs = some st ∧
      (st.minRtt ∈ rs ∧ ∀ r ∈ rs, st.minRtt ≤ r) ∧
      (st.maxRtt ∈ rs ∧ ∀ r ∈ rs, r ≤ st.maxRtt) ∧
      summary st = some s ∧
      s.rtt = some (st.minRtt,
        roundDouble (rs.foldl (fun s r => roundDouble (s + r)) 0 / (rs.length : ℚ)),
        st.maxRtt) ∧
      rs.sum / (rs.length : ℚ) * (1 - 1 / 2 ^ 53) ^ (rs.length + 1) ≤
        roundDouble (rs.foldl (fun s r => roundDouble (s + r)) 0 / (rs.length : ℚ)) ∧
      roundDouble (rs.foldl (fun s r => roundDouble (s + r)) 0 / (rs.length : ℚ)) ≤
        rs.sum / (rs.length : ℚ) * (1 + 1 / 2 ^ 53) ^ (rs.length + 1) ∧
      |roundDouble (rs.foldl (fun s r => roundDouble (s + r)) 0 / (rs.length : ℚ)) -
          rs.sum / (rs.length : ℚ)| ≤ rs.sum / (rs.length : ℚ) / 2 ^ 21 ∧
      (∀ i : Nat, (rs.take i).foldl (fun s r => roundDouble (s + r)) 0 ≤ 2 ^ 95) ∧
      (∀ us : Int, 0 ≤ us → us < 2 ^ 63 →
        (rttOfMicros us = 0 ∨ (2 : ℚ) ^ (-10 : ℤ) ≤ rttOfMicros us) ∧
          rttOfMicros us ≤ 2 ^ 63) := by
  obtain ⟨e1, e2, e3, e4, e5, -⟩ :=
    applyEvents_spec be getpid (toU16 (getpid &&& 0xFFFF)) evs 1 LoopState.init
  have hle := repliedRtts_length_le be getpid (toU16 (getpid &&& 0xFFFF)) evs 1
  rw [hrs] at e2 e3 e4 e5 hle
  have i1 : LoopState.init.sent = 0 := rfl
  have i2 : LoopState.init.recv = 0 := rfl
  have i3 : LoopState.init.sumRtt = 0 := rfl
  have i4 : LoopState.init.minRtt = 1000000000 := rfl
  have i5 : LoopState.init.maxRtt = 0 := rfl
  rw [i1, zero_add] at e1
  rw [i2, zero_add] at e2
  rw [i3] at e3
  rw [i4] at e4
  rw [i5] at e5
  have hcount := List.countP_le_length ProbeEvent.sendOk (l := evs)
  have hk31 : (rs.length : ℚ) + 1 ≤ 2 ^ 31 := by
    have : rs.length + 1 ≤ 2 ^ 31 := by omega
    exact_mod_cast this
  have hpos : ∀ r ∈ rs, 0 ≤ r := by
    intro r hr
    rcases hrange r hr with h' | h'
    · rw [h']
    · exact le_trans (le_of_lt (zpow_pos (by norm_num) _)) h'
  have hlen_pos : 0 < rs.length := List.length_pos.mpr hne
  have hs : (applyEvents be getpid (toU16 (getpid &&& 0xFFFF)) evs 1 LoopState.init).sent
      ≠ 0 := by omega
  have hr : (applyEvents be getpid (toU16 (getpid &&& 0xFFFF)) evs 1 LoopState.init).recv
      ≠ 0 := by omega
  have hsum : summary
      (applyEvents be getpid (toU16 (getpid &&& 0xFFFF)) evs 1 LoopState.init) = some _ :=
    if_pos hs
  obtain ⟨m1, m2, m3⟩ := foldl_min_spec rs 1000000000
  obtain ⟨x1, x2, x3⟩ := foldl_max_spec rs 0
  obtain ⟨a1, a2, a3⟩ := doubleAvg_bounds rs hne hrange hk31
  refine ⟨_, _, runProbes_eq be getpid count evs h0 (by omega) hlen, ⟨?_, ?_⟩, ⟨?_, ?_⟩,
    hsum, ?_, a1, a2, a3, ?_, rttOfMicros_range⟩
  · rw [e4]
    rcases m3 with h | h
    · obtain ⟨r, hr1, hr2⟩ := hcap
      have : r = 1000000000 := le_antisymm hr2 (h ▸ m2 r hr1)
      rw [h, ← this]; exact hr1
    · exact h
  · rw [e4]; exact m2
  · rw [e5]
    rcases x3 with h | h
    · obtain ⟨r, hr1⟩ := List.exists_mem_of_ne_nil rs hne
      have : r = 0 := le_antisymm (h ▸ x2 r hr1) (hpos r hr1)
      rw [h, ← this]; exact hr1
    · exact h
  · rw [e5]; exact x2
  · show (if _ then _ else _) = _
    rw [if_pos hr, e2, e3]
    simp
  · intro i
    apply doubleSum_le
    · exact fun r hr => hrange r (List.mem_of_mem_take hr)
    · exact fun r hr => hhi r (List.mem_of_mem_take hr)
    · have : (rs.take i).length ≤ rs.length := by
        rw [List.length_take]; exact Nat.min_le_right _ _
      have : ((rs.take i).length : ℚ) ≤ (rs.length : ℚ) := by exact_mod_cast this
      linarith

theorem roundDouble_fixed (x : ℚ) (m t : Int) (hx : x = (m : ℚ) * (2 : ℚ) ^ t)
    (hm1 : 2 ^ 52 ≤ m) (hm2 : m < 2 ^ 53) (ht : -1074 ≤ t) : roundDouble x = x := by
  rw [hx]
  exact roundDouble_of_significand m t hm1 hm2 ht

theorem roundHalfEven_half_odd (f : Int) (hodd : f % 2 = 1) :
    roundHalfEven ((f : ℚ) + 1 / 2) = f + 1 := by
  have hfl : ⌊(f : ℚ) + 1 / 2⌋ = f := by
    rw [Int.floor_eq_iff]
    constructor <;> linarith
  unfold roundHalfEven
  simp only [hfl]
  have e : (f : ℚ) + 1 / 2 - (f : ℚ) = 1 / 2 := by ring
  rw [e, if_neg (lt_irrefl _), if_neg (lt_irrefl _), if_neg (by omega)]

theorem roundDouble_one : roundDouble (0 + 1) = 1 := by
  have h := roundDouble_fixed (0 + 1) 4503599627370496 (-52) (by norm_num) (by norm_num)
    (by norm_num) (by norm_num)
  rw [h]; norm_num

theorem roundDouble_three : roundDouble (1 + 2) = 3 := by
  have h := roundDouble_fixed (1 + 2) 6755399441055744 (-51) (by norm_num) (by norm_num)
    (by norm_num) (by norm_num)
  rw [h]; norm_num

theorem roundDouble_six : roundDouble (3 + 3) = 6 := by
  have h := roundDouble_fixed (3 + 3) 6755399441055744 (-50) (by norm_num) (by norm_num)
    (by norm_num) (by norm_num)
  rw [h]; norm_num

theorem roundDouble_ten : roundDouble (6 + 4) = 10 := by
  have h := roundDouble_fixed (6 + 4) 5629499534213120 (-49) (by norm_num) (by norm_num)
    (by norm_num) (by norm_num)
  rw [h]; norm_num

theorem roundDouble_ten_quarters : roundDouble (10 / 4) = 5 / 2 := by
  have h := roundDouble_fixed (10 / 4) 5629499534213120 (-51) (by norm_num) (by norm_num)
    (by norm_num) (by norm_num)
  rw [h]; norm_num

/-- The `double` sum of 0.030 and 0.037 is a tie, rounded to the even neighbour above the
exact sum. -/
theorem roundDouble_rtt30_rtt37 :
    roundDouble (0 + rtt30) = rtt30 ∧
    roundDouble (rtt30 + rtt37) = 4827858800541172 / 2 ^ 56 ∧
    roundDouble (4827858800541172 / 2 ^ 56 / 2) = 4827858800541172 / 2 ^ 57 := by
  refine ⟨?_, ?_, ?_⟩
  · have h := roundDouble_fixed (0 + rtt30) 8646911284551352 (-58)
      (by unfold rtt30; norm_num) (by norm_num) (by norm_num) (by norm_num)
    rw [h]; norm_num
  · rw [roundDouble_eval (rtt30 + rtt37) (-4) (by norm_num)
      (by unfold rtt30 rtt37; norm_num) (by unfold rtt30 rtt37; norm_num)]
    have e : (rtt30 + rtt37) / (2 : ℚ) ^ ((-4 : ℤ) - 52) =
        ((4827858800541171 : Int) : ℚ) + 1 / 2 := by
      unfold rtt30 rtt37
      norm_num
    rw [e, roundHalfEven_half_odd 4827858800541171 (by decide)]
    norm_num
  · have h := roundDouble_fixed (4827858800541172 / 2 ^ 56 / 2) 4827858800541172 (-57)
      (by norm_num) (by norm_num) (by norm_num) (by norm_num)
    rw [h]; norm_num

theorem rttOfMicros_30_37 : rttOfMicros 30 = rtt30 ∧ rttOfMicros 37 = rtt37 := by
  constructor
  · unfold rttOfMicros
    have h := roundDouble_fixed ((30 : Int) : ℚ) 8444249301319680 (-48) (by norm_num)
      (by norm_num) (by norm_num) (by norm_num)
    rw [h]
    rw [roundDouble_eval (((30 : Int) : ℚ) / 1000) (-6) (by norm_num) (by norm_num)
      (by norm_num)]
    rw [roundHalfEven_of_lt_half 8646911284551352 _ (by norm_num) (by norm_num)]
    unfold rtt30
    norm_num
  · unfold rttOfMicros
    have h := roundDouble_fixed ((37 : Int) : ℚ) 5207287069147136 (-47) (by norm_num)
      (by norm_num) (by norm_num) (by norm_num)
    rw [h]
    rw [roundDouble_eval (((37 : Int) : ℚ) / 1000) (-5) (by norm_num) (by norm_num)
      (by norm_num)]
    rw [roundHalfEven_of_lt_half 5332261958806667 _ (by norm_num) (by norm_num)]
    unfold rtt37
    norm_num

theorem rtt_aggregation_witness :
    ∃ (st : LoopState) (s : Summary),
      runProbes false 1234 4
        [.received 84 (replyBuf 1234 1) 1, .received 84 (replyBuf 1234 2) 2,
          .received 84 (replyBuf 1234 3) 3, .received 84 (replyBuf 1234 4) 4] = some st ∧
      summary st = some s ∧ s.rtt = some (1, 5 / 2, 4) := by
  obtain ⟨st, s, hrun, ⟨m1, m2⟩, ⟨x1, x2⟩, hsum, hrtt, -⟩ :=
    rtt_aggregation false 1234 4
      [.received 84 (replyBuf 1234 1) 1, .received 84 (replyBuf 1234 2) 2,
        .received 84 (replyBuf 1234 3) 3, .received 84 (replyBuf 1234 4) 4]
      [1, 2, 3, 4] (by decide) (by decide) (by decide) (by decide) (by decide)
      (by intro r hr; simp only [List.mem_cons, List.mem_singleton, List.mem_nil_iff,
            or_false] at hr; rcases hr with rfl | rfl | rfl | rfl <;> right <;> norm_num)
      (by intro r hr; simp only [List.mem_cons, List.mem_singleton, List.mem_nil_iff,
            or_false] at hr; rcases hr with rfl | rfl | rfl | rfl <;> norm_num)
      ⟨1, by simp, by norm_num⟩
  have hmin : st.minRtt = 1 := by
    have h := m2 1 (by simp)
    simp only [List.mem_cons, List.mem_singleton, List.mem_nil_iff, or_false] at m1
    rcases m1 with e | e | e | e <;> rw [e] at h ⊢ <;> norm_num at h ⊢
  have hmax : st.maxRtt = 4 := by
    have h := x2 4 (by simp)
    simp only [List.mem_cons, List.mem_singleton, List.mem_nil_iff, or_false] at x1
    rcases x1 with e | e | e | e <;> rw [e] at h ⊢ <;> norm_num at h ⊢
  refine ⟨st, s, hrun, hsum, ?_⟩
  rw [hrtt, hmin, hmax]
  simp only [List.foldl_cons, List.foldl_nil, List.length_cons, List.length_nil]
  rw [roundDouble_one, roundDouble_three, roundDouble_six, roundDouble_ten]
  have e : ((0 + 1 + 1 + 1 + 1 : Nat) : ℚ) = 4 := by norm_num
  rw [e, roundDouble_ten_quarters]

/-- C8, counterexample. One probe, replied to after `2e9` milliseconds: the only sample is
`2e9` and `minRtt` is `1e9` after the loop. Two probes, replied to after 30 and 37
microseconds: the samples are the `double`s nearest to 0.030 and 0.037, the values line
156 gives for 30 and 37 microseconds, their `double` sum is rounded, and the average of
the summary, `4827858800541172 / 2 ^ 57`, is not their exact average. -/
theorem min_rtt_sentinel :
    (∃ st : LoopState,
      runProbes false 1234 1 [.received 84 (replyBuf 1234 1) 2000000000] = some st ∧
      repliedRtts false 1234 (toU16 (1234 &&& 0xFFFF))
        [.received 84 (replyBuf 1234 1) 2000000000] 1 = [2000000000] ∧
      st.minRtt = 1000000000 ∧ st.minRtt ≠ 2000000000) ∧
    (∃ (st : LoopState) (s : Summary),
      runProbes false 1234 2
        [.received 84 (replyBuf 1234 1) rtt30, .received 84 (replyBuf 1234 2) rtt37]
          = some st ∧
      repliedRtts false 1234 (toU16 (1234 &&& 0xFFFF))
        [.received 84 (replyBuf 1234 1) rtt30, .received 84 (replyBuf 1234 2) rtt37] 1
          = [rtt30, rtt37] ∧
      summary st = some s ∧
      s.rtt = some (rtt30, 4827858800541172 / 2 ^ 57, rtt37) ∧
      (rtt30 + rtt37) / 2 ≠ 4827858800541172 / 2 ^ 57) ∧
    (rttOfMicros 30 = rtt30 ∧ rttOfMicros 37 = rtt37) := by
  refine ⟨?_, ?_, rttOfMicros_30_37⟩
  · have hrs : repliedRtts false 1234 (toU16 (1234 &&& 0xFFFF))
        [.received 84 (replyBuf 1234 1) 2000000000] 1 = [2000000000] := by decide
    obtain ⟨-, -, -, e4, -⟩ := applyEvents_spec false 1234 (toU16 (1234 &&& 0xFFFF))
      [.received 84 (replyBuf 1234 1) 2000000000] 1 LoopState.init
    have i4 : LoopState.init.minRtt = 1000000000 := rfl
    rw [hrs, i4] at e4
    have hmin : (applyEvents false 1234 (toU16 (1234 &&& 0xFFFF))
        [.received 84 (replyBuf 1234 1) 2000000000] 1 LoopState.init).minRtt
        = 1000000000 := by
      rw [e4]; norm_num
    refine ⟨_, runProbes_eq false 1234 1 _ (by decide) (by decide) (by decide), hrs,
      hmin, ?_⟩
    rw [hmin]; norm_num
  · have h1 : replied false 1234 (toU16 (1234 &&& 0xFFFF)) 1
        (.received 84 (replyBuf 1234 1) rtt30) = true := by decide
    have h2 : replied false 1234 (toU16 (1234 &&& 0xFFFF)) (1 + 1)
        (.received 84 (replyBuf 1234 2) rtt37) = true := by decide
    have hrs : repliedRtts false 1234 (toU16 (1234 &&& 0xFFFF))
        [.received 84 (replyBuf 1234 1) rtt30, .received 84 (replyBuf 1234 2) rtt37] 1
          = [rtt30, rtt37] := by
      rw [repliedRtts_cons_of_replied _ _ _ _ _ _ _ _ h1,
        repliedRtts_cons_of_replied _ _ _ _ _ _ _ _ h2]
      rfl
    obtain ⟨e1, e2, e3, e4, e5, -⟩ := applyEvents_spec false 1234 (toU16 (1234 &&& 0xFFFF))
      [.received 84 (replyBuf 1234 1) rtt30, .received 84 (replyBuf 1234 2) rtt37] 1
      LoopState.init
    obtain ⟨r1, r2, r3⟩ := roundDouble_rtt30_rtt37
    have i1 : LoopState.init.sent = 0 := rfl
    have i2 : LoopState.init.recv = 0 := rfl
    have i3 : LoopState.init.sumRtt = 0 := rfl
    have i4 : LoopState.init.minRtt = 1000000000 := rfl
    have i5 : LoopState.init.maxRtt = 0 := rfl
    rw [hrs] at e2 e3 e4 e5
    rw [i3] at e3
    rw [i4] at e4
    rw [i5] at e5
    simp only [List.foldl_cons, List.foldl_nil] at e3 e4 e5
    rw [r1, r2] at e3
    have e4' : (applyEvents false 1234 (toU16 (1234 &&& 0xFFFF))
        [.received 84 (replyBuf 1234 1) rtt30, .received 84 (replyBuf 1234 2) rtt37] 1
        LoopState.init).minRtt = rtt30 := by
      rw [e4]; unfold rtt30 rtt37; norm_num
    have e5' : (applyEvents false 1234 (toU16 (1234 &&& 0xFFFF))
        [.received 84 (replyBuf 1234 1) rtt30, .received 84 (replyBuf 1234 2) rtt37] 1
        LoopState.init).maxRtt = rtt37 := by
      rw [e5]; unfold rtt30 rtt37; norm_num
    have e1' : (applyEvents false 1234 (toU16 (1234 &&& 0xFFFF))
        [.received 84 (replyBuf 1234 1) rtt30, .received 84 (replyBuf 1234 2) rtt37] 1
        LoopState.init).sent = 2 := by
      rw [e1, i1]; rfl
    have e2' : (applyEvents false 1234 (toU16 (1234 &&& 0xFFFF))
        [.received 84 (replyBuf 1234 1) rtt30, .received 84 (replyBuf 1234 2) rtt37] 1
        LoopState.init).recv = 2 := by
      rw [e2, i2]; rfl
    have hs : (applyEvents false 1234 (toU16 (1234 &&& 0xFFFF))
        [.received 84 (replyBuf 1234 1) rtt30, .received 84 (replyBuf 1234 2) rtt37] 1
        LoopState.init).sent ≠ 0 := by rw [e1']; decide
    have hr : (applyEvents false 1234 (toU16 (1234 &&& 0xFFFF))
        [.received 84 (replyBuf 1234 1) rtt30, .received 84 (replyBuf 1234 2) rtt37] 1
        LoopState.init).recv ≠ 0 := by rw [e2']; decide
    have hsum : summary (applyEvents false 1234 (toU16 (1234 &&& 0xFFFF))
        [.received 84 (replyBuf 1234 1) rtt30, .received 84 (replyBuf 1234 2) rtt37] 1
        LoopState.init) = some _ := if_pos hs
    refine ⟨_, _, runProbes_eq false 1234 2 _ (by decide) (by decide) (by decide), hrs,
      hsum, ?_, ?_⟩
    · dsimp only
      rw [if_pos hr, e4', e5', e3, e2']
      have c : ((2 : Int) : ℚ) = 2 := by norm_num
      rw [c, r3]
    · unfold rtt30 rtt37
      norm_num

/-! ## `calculateChecksum` and RFC 1071 -/

theorem onesAdd_onesNorm (a w : Nat) (hw : w ≤ 65535) :
    onesAdd (onesNorm a) w = onesNorm (a + w) := by
  unfold onesAdd onesNorm
  by_cases ha : a = 0
  · subst ha
    simp only [if_true, Nat.zero_add]
    by_cases hw0 : w = 0
    · subst hw0; rfl
    · rw [if_neg hw0, if_pos (by omega)]
      have : (w - 1) % 65535 = w - 1 := Nat.mod_eq_of_lt (by omega)
      omega
  · have haw : ¬ a + w = 0 := by omega
    rw [if_neg ha, if_neg haw]
    have hlt : (a - 1) % 65535 < 65535 := Nat.mod_lt _ (by decide)
    have hdm : 65535 * ((a - 1) / 65535) + (a - 1) % 65535 = a - 1 := Nat.div_add_mod _ _
    generalize (a - 1) % 65535 = r at hlt hdm ⊢
    generalize (a - 1) / 65535 = q at hdm
    have ea : a + w - 1 = 65535 * q + (r + w) := by omega
    rw [ea]
    by_cases hc : r + 1 + w < 65536
    · rw [if_pos hc, Nat.mul_add_mod, Nat.mod_eq_of_lt (by omega)]
      omega
    · rw [if_neg hc, Nat.mul_add_mod]
      have : (r + w) % 65535 = r + w - 65535 := by omega
      omega

theorem foldl_onesAdd (ws : List Nat) (hws : ∀ w ∈ ws, w ≤ 65535) :
    ∀ a : Nat, ws.foldl onesAdd (onesNorm a) = onesNorm (a + ws.sum) := by
  induction ws with
  | nil => intro a; rfl
  | cons w rest ih =>
    intro a
    rw [List.foldl_cons, onesAdd_onesNorm a w (hws w (List.mem_cons_self w rest)),
      ih (fun x hx => hws x (List.mem_cons_of_mem w hx)), List.sum_cons, Nat.add_assoc]

/-- Two folds suffice for a 32-bit accumulator: `finish` complements the fully folded sum. -/
theorem finish_eq_onesNorm (s : Nat) (hs : s < 2 ^ 32) : finish s = 65535 - onesNorm s := by
  unfold finish onesNorm
  have hdm : 65536 * (s / 65536) + s % 65536 = s := Nat.div_add_mod s 65536
  have hl : s % 65536 < 65536 := Nat.mod_lt _ (by decide)
  have hh : s / 65536 < 65536 := by omega
  generalize s / 65536 = h at hdm hh ⊢
  generalize s % 65536 = l at hdm hl ⊢
  subst hdm
  by_cases h0 : 65536 * h + l = 0
  · have e1 : h = 0 := by omega
    have e2 : l = 0 := by omega
    subst e1; subst e2; rfl
  · rw [if_neg h0]
    have ea : 65536 * h + l - 1 = 65535 * h + (h + l - 1) := by omega
    rw [ea, Nat.mul_add_mod]
    by_cases g : h + l < 65536
    · have e0 : (h + l) / 65536 = 0 := Nat.div_eq_of_lt g
      rw [e0, Nat.add_zero, Nat.mod_eq_of_lt g]
      by_cases g2 : h + l = 65535
      · have : (h + l - 1) % 65535 = 65534 := by omega
        omega
      · have : (h + l - 1) % 65535 = h + l - 1 := Nat.mod_eq_of_lt (by omega)
        omega
    · have e0 : (h + l) / 65536 = 1 := by omega
      rw [e0]
      have e1 : (h + l + 1) % 65536 = h + l - 65535 := by omega
      rw [e1]
      by_cases g2 : h + l = 131070
      · have : (h + l - 1) % 65535 = 65534 := by omega
        omega
      · have : (h + l - 1) % 65535 = h + l - 65536 := by omega
        omega

theorem wordSum_cons_cons (b0 b1 : Byte) (rest : List Byte) :
    ∀ k : Nat, wordSum (b0 :: b1 :: rest) (k + 1) =
      (b0.val * 256 + b1.val) + wordSum rest k := by
  intro k
  induction k with
  | zero => simp [wordSum, netWord, byteAt]
  | succ k ih =>
    rw [wordSum, ih, wordSum, Nat.add_assoc]
    congr 2

theorem netWord_le (data : List Byte) (i : Nat) : netWord data i ≤ 65535 := by
  unfold netWord
  have h0 := (byteAt data (2 * i)).isLt
  have h1 := (byteAt data (2 * i + 1)).isLt
  omega

theorem wordSum_le (data : List Byte) (k : Nat) : wordSum data k ≤ 65535 * k := by
  induction k with
  | zero => exact Nat.le_refl 0
  | succ k ih =>
    have := netWord_le data k
    rw [wordSum]
    omega

theorem rfcWords_le (data : List Byte) : ∀ w ∈ rfcWords data, w ≤ 65535 := by
  induction data using rfcWords.induct with
  | case1 b0 b1 rest ih =>
    intro w hw
    rw [rfcWords, List.mem_cons] at hw
    rcases hw with rfl | hw
    · have h0 := b0.isLt
      have h1 := b1.isLt
      omega
    · exact ih w hw
  | case2 b0 =>
    intro w hw
    rw [rfcWords, List.mem_singleton] at hw
    have h0 := b0.isLt
    omega
  | case3 => intro w hw; simp [rfcWords] at hw

theorem rfcWords_sum_even (data : List Byte) (heven : data.length % 2 = 0) :
    (rfcWords data).sum = wordSum data (data.length / 2) := by
  induction data using rfcWords.induct with
  | case1 b0 b1 rest ih =>
    simp only [List.length_cons] at heven ⊢
    have e : (rest.length + 1 + 1) / 2 = rest.length / 2 + 1 := by omega
    rw [rfcWords, List.sum_cons, e, wordSum_cons_cons, ih (by omega)]
  | case2 b0 => simp at heven
  | case3 => rfl

theorem onesNorm_le (w : Nat) : onesNorm w ≤ 65535 := by
  unfold onesNorm
  split
  · omega
  · have := Nat.mod_lt (w - 1) (by decide : 0 < 65535)
    omega

theorem calculateChecksum_eq_twoFolds (be : Bool) (data : List Byte) :
    calculateChecksum be data = toU16 (2 ^ 32 - 1 - twoFolds (accumulate be data)) := rfl

theorem accumulate_eq (be : Bool) (data : List Byte) :
    accumulate be data = rawSum data % 2 ^ 32 := by
  simp only [accumulate, foldl_wordSum, Nat.and_one_is_mod, accum_eq]

theorem foldCarries_of_lt (s : Nat) (h : s < 65536) : foldCarries s = s := by
  rw [foldCarries, if_pos h]

theorem foldCarries_of_ge (s : Nat) (h : ¬ s < 65536) :
    foldCarries s = foldCarries (s / 65536 + s % 65536) := by
  rw [foldCarries, if_neg h, foldOnce, shr16, and_ffff]

theorem foldCarries_of_lt_two_pow (s : Nat) (hs : s < 2 ^ 32) :
    foldCarries s =
      (s / 65536 + s % 65536 + (s / 65536 + s % 65536) / 65536) % 65536 := by
  have hdm : 65536 * (s / 65536) + s % 65536 = s := Nat.div_add_mod s 65536
  have hl : s % 65536 < 65536 := Nat.mod_lt _ (by decide)
  have hh : s / 65536 < 65536 := by omega
  by_cases h1 : s < 65536
  · rw [foldCarries_of_lt s h1, Nat.div_eq_of_lt h1, Nat.mod_eq_of_lt h1]
    simp only [Nat.zero_add, Nat.div_eq_of_lt h1, Nat.add_zero, Nat.mod_eq_of_lt h1]
  · rw [foldCarries_of_ge s h1]
    have ha : s / 65536 + s % 65536 < 131071 := by omega
    generalize s / 65536 + s % 65536 = a at ha ⊢
    by_cases h2 : a < 65536
    · rw [foldCarries_of_lt a h2, Nat.div_eq_of_lt h2, Nat.add_zero, Nat.mod_eq_of_lt h2]
    · have e0 : a / 65536 = 1 := by omega
      have e1 : a % 65536 = a - 65536 := by omega
      rw [foldCarries_of_ge a h2, e0, e1, foldCarries_of_lt _ (by omega)]
      omega

theorem twoFolds_eq (s : Nat) (hs : s < 2 ^ 32) :
    twoFolds s = s / 65536 + s % 65536 + (s / 65536 + s % 65536) / 65536 := by
  have ha : s / 65536 + s % 65536 < 131072 := by omega
  simp only [twoFolds, shr16, and_ffff]
  generalize s / 65536 + s % 65536 = a at ha ⊢
  rw [Nat.mod_eq_of_lt (by omega : a < 2 ^ 32),
    Nat.mod_eq_of_lt (by omega : a + a / 65536 < 2 ^ 32)]

/-- C15. Two folds suffice: for every 32-bit accumulated sum, after the two folding steps
of `calculateChecksum` the low 16 bits of `sum` are the value reached by repeating the fold
`sum = (sum >> 16) + (sum & 0xFFFF)` until no carry remains above bit 15, and the value
returned is the one's complement of that fully folded sum; this holds for the sum
accumulated over any buffer. -/
theorem two_folds_suffice (s : Nat) (hs : s < 2 ^ 32) :
    twoFolds s % 65536 = foldCarries s ∧
    (toU16 (2 ^ 32 - 1 - twoFolds s)).val = 65535 - foldCarries s ∧
    (∀ (be : Bool) (data : List Byte),
      accumulate be data < 2 ^ 32 ∧
      (calculateChecksum be data).val = 65535 - foldCarries (accumulate be data)) := by
  have key : ∀ t : Nat, t < 2 ^ 32 →
      twoFolds t % 65536 = foldCarries t ∧
      (toU16 (2 ^ 32 - 1 - twoFolds t)).val = 65535 - foldCarries t := by
    intro t ht
    have ha : t / 65536 + t % 65536 < 131072 := by omega
    rw [foldCarries_of_lt_two_pow t ht, twoFolds_eq t ht, toU16_val]
    generalize t / 65536 + t % 65536 = a at ha ⊢
    refine ⟨rfl, ?_⟩
    omega
  refine ⟨(key s hs).1, (key s hs).2, ?_⟩
  intro be data
  have hlt : accumulate be data < 2 ^ 32 := by
    rw [accumulate_eq]; exact Nat.mod_lt _ (by decide)
  exact ⟨hlt, by rw [calculateChecksum_eq_twoFolds]; exact (key _ hlt).2⟩

theorem two_folds_suffice_witness :
    twoFolds 0xFFFFFFFF % 65536 = foldCarries 0xFFFFFFFF ∧
    (toU16 (2 ^ 32 - 1 - twoFolds 0xFFFFFFFF)).val = 65535 - foldCarries 0xFFFFFFFF ∧
    (∀ (be : Bool) (data : List Byte),
      accumulate be data < 2 ^ 32 ∧
      (calculateChecksum be data).val = 65535 - foldCarries (accumulate be data)) :=
  two_folds_suffice 0xFFFFFFFF (by decide)

/-! ## The checksum invariant of an `ICMP` object -/

/-- Storing `htons c` in the checksum member writes `c` in network order into octets 2
and 3 of the image. -/
theorem bytes_checksum_htons (be : Bool) (p : ICMPPacket) (c : U16) :
    ({ p with checksum := htons be c } : ICMPPacket).bytes be =
      setChecksumField (p.bytes be) c := by
  simp only [ICMPPacket.bytes, storeU16_htons, setChecksumField]
  cases be <;> simp [storeU16]

theorem updateChecksum_raw_eq (be : Bool) (m : ICMP) :
    (m.updateChecksum be).raw be =
      setChecksumField (m.raw be)
        (calculateChecksum be (setChecksumField (m.raw be) 0)) := by
  simp only [ICMP.updateChecksum, ICMP.raw]
  rw [bytes_checksum_htons, bytes_checksum_zero]

/-- After `updateChecksum` the message verifies. -/
theorem updateChecksum_verifies (be : Bool) (m : ICMP) :
    calculateChecksum be ((m.updateChecksum be).raw be) = 0 := by
  have h : 4 ≤ (m.raw be).length := by
    rw [ICMP.raw, length_bytes]; decide
  rw [updateChecksum_raw_eq]
  apply Fin.ext
  rw [calculateChecksum_val, rawSum_setChecksumField _ _ h, calculateChecksum_val,
    ← Nat.mod_add_mod]
  exact finish_verify _ (Nat.mod_lt _ (by decide))

/-- A message of 64 octets whose `calculateChecksum` is zero has one's-complement sum
`0xFFFF`. -/
theorem onesSum_of_checksum_zero (be : Bool) (p : ICMPPacket)
    (h : calculateChecksum be (p.bytes be) = 0) :
    (rfcWords (p.bytes be)).foldl onesAdd 0 = 0xFFFF := by
  have hlen := length_bytes be p
  have hraw : rawSum (p.bytes be) = wordSum (p.bytes be) ((p.bytes be).length / 2) := by
    unfold rawSum
    rw [if_neg (by omega), Nat.add_zero]
  have hle := wordSum_le (p.bytes be) ((p.bytes be).length / 2)
  have hlt : rawSum (p.bytes be) < 2 ^ 32 := by rw [hraw]; omega
  have hv := calculateChecksum_val be (p.bytes be)
  rw [h, Nat.mod_eq_of_lt hlt, finish_eq_onesNorm _ hlt] at hv
  have hn := onesNorm_le (rawSum (p.bytes be))
  have h0 := foldl_onesAdd (rfcWords (p.bytes be)) (rfcWords_le _) 0
  have e0 : onesNorm 0 = 0 := rfl
  rw [Nat.zero_add, e0, rfcWords_sum_even _ (by omega), ← hraw] at h0
  rw [h0]
  have : ((0 : U16) : Nat) = 0 := rfl
  omega

theorem calls_is_updateChecksum (be : Bool) (cs : List ICMPCall) :
    ∀ m : ICMP, (∃ m0 : ICMP, m = m0.updateChecksum be) →
      ∃ m0 : ICMP, m.calls be cs = m0.updateChecksum be := by
  induction cs with
  | nil => intro m h; exact h
  | cons c rest ih =>
    intro m _
    rw [ICMP.calls, List.foldl_cons]
    apply ih
    cases c with
    | setSequence seq => exact ⟨_, rfl⟩
    | updateChecksum => exact ⟨_, rfl⟩

/-- C13. After construction with any identifier and sequence, and after any further
sequence of `setSequence` and `updateChecksum` calls, the one's-complement sum of the 64
octets of the message, checksum included, is `0xFFFF`; `calculateChecksum` over the stored
octets is 0; and `getCksum` is `calculateChecksum` of the message with its checksum field
zero. -/
theorem checksum_invariant (be : Bool) (getpid : Nat) (id seq : U16) (cs : List ICMPCall) :
    (rfcWords (((ICMP.new be getpid id seq).calls be cs).raw be)).foldl onesAdd 0 = 0xFFFF ∧
    calculateChecksum be (((ICMP.new be getpid id seq).calls be cs).raw be) = 0 ∧
    ((ICMP.new be getpid id seq).calls be cs).getCksum be =
      calculateChecksum be
        (setChecksumField (((ICMP.new be getpid id seq).calls be cs).raw be) 0) := by
  obtain ⟨m0, h⟩ := calls_is_updateChecksum be cs (ICMP.new be getpid id seq) ⟨_, rfl⟩
  rw [h]
  exact ⟨onesSum_of_checksum_zero be _ (updateChecksum_verifies be m0),
    updateChecksum_verifies be m0, updateChecksum_getCksum be m0⟩

/-! ## `setSequence` and construction -/

/-- C16. For every identifier `id` and all sequences `s` and `s2`, the object built by
`ICMP(id, s)` followed by `setSequence(s2)` is the object built by `ICMP(id, s2)`, and so
are their 64 octets, checksum included; `setSequence` leaves type, code, identifier and
payload as they were and stores the new sequence; and `updateChecksum` called twice leaves
what one call leaves. -/
theorem setSequence_agrees_with_constructor (be : Bool) (getpid : Nat) (id s s2 : U16) :
    (ICMP.new be getpid id s).setSequence be s2 = ICMP.new be getpid id s2 ∧
    ((ICMP.new be getpid id s).setSequence be s2).raw be = (ICMP.new be getpid id s2).raw be ∧
    (((ICMP.new be getpid id s).setSequence be s2).raw be).length = 64 ∧
    (∀ (m : ICMP) (seq : U16),
      (m.setSequence be seq).packet_.type = m.packet_.type ∧
      (m.setSequence be seq).packet_.code = m.packet_.code ∧
      (m.setSequence be seq).packet_.id = m.packet_.id ∧
      (m.setSequence be seq).packet_.payload = m.packet_.payload ∧
      (m.setSequence be seq).getSeq be = seq) ∧
    (∀ m : ICMP,
      (m.updateChecksum be).updateChecksum be = m.updateChecksum be ∧
      ((m.updateChecksum be).updateChecksum be).raw be = (m.updateChecksum be).raw be) := by
  have h1 : (ICMP.new be getpid id s).setSequence be s2 = ICMP.new be getpid id s2 := rfl
  refine ⟨h1, by rw [h1], length_bytes be _, ?_, ?_⟩
  · intro m seq
    refine ⟨rfl, rfl, rfl, rfl, ?_⟩
    simp only [ICMP.setSequence, ICMP.updateChecksum, ICMP.getSeq, ntohs_htons]
  · intro m
    exact ⟨rfl, rfl⟩

/-! ## The summary -/

/-- With `count` at least the largest `int`, the loop has not ended on any finite sequence
of events. -/
theorem probeLoop_none_of_large (be : Bool) (getpid : Nat) (pid : U16) (count : Int)
    (hc : 2147483647 ≤ count) (evs : List ProbeEvent) :
    ∀ (seq : Int) (st : LoopState), seq ≤ 2147483647 →
      probeLoop be getpid pid count evs seq st = none := by
  induction evs with
  | nil => intro seq st h; rw [probeLoop, if_pos (by omega)]
  | cons ev rest ih =>
    intro seq st h
    rw [probeLoop, if_pos (by omega)]
    exact ih _ _ (wrapInt32_range (seq + 1)).2

/-- The final state of a run is the initial state after the events the loop consumed. -/
theorem runProbes_final (be : Bool) (getpid : Nat) (count : Int) (evs : List ProbeEvent)
    (st : LoopState) (h : runProbes be getpid count evs = some st) :
    ∃ used : List ProbeEvent,
      st = applyEvents be getpid (toU16 (getpid &&& 0xFFFF)) used 1 LoopState.init ∧
      (∀ ev ∈ used, ev ∈ evs) ∧ (count ≤ 0 → used = []) := by
  unfold runProbes at h
  by_cases hc : count ≤ 2147483646
  · rw [probeLoop_eq be getpid _ count hc evs 1 _ (le_refl 1)] at h
    split at h
    · refine ⟨evs.take (count + 1 - 1).toNat, (Option.some.inj h).symm,
        fun ev hev => List.mem_of_mem_take hev, ?_⟩
      intro h0
      have e : (count + 1 - 1).toNat = 0 := by omega
      rw [e, List.take_zero]
    · exact absurd h (by simp)
  · rw [probeLoop_none_of_large be getpid _ count (by omega) evs 1 _ (by decide)] at h
    exact absurd h (by simp)

theorem summaryChecked_eq (st : LoopState) : summaryChecked st = some (summary st) := by
  unfold summaryChecked summary
  by_cases hs : st.sent ≠ 0
  · rw [if_pos hs, if_pos hs]
    simp only [checkedDivInt, if_neg hs]
    by_cases hr : st.recv ≠ 0
    · simp only [if_pos hr, checkedDivRat, if_neg hr, lossPercent]
    · simp only [if_neg hr, lossPercent]
  · rw [if_neg hs, if_neg hs]

/-- C11. For every final state of the probe loop: the summary makes no division by zero;
the loss is computed, by a division by `sent`, only when `sent ≥ 1`, and the average, by a
division by `recv`, only when `recv ≥ 1`; when `recv = 0` no round-trip-time line is
produced; when `sent = 0`, as for `count ≤ 0` or when every send fails, no statistics
are produced at all. -/
theorem summary_never_divides_by_zero (be : Bool) (getpid : Nat) (count : Int)
    (evs : List ProbeEvent) (st : LoopState)
    (hrun : runProbes be getpid count evs = some st) :
    summaryChecked st = some (summary st) ∧
    0 ≤ st.sent ∧ 0 ≤ st.recv ∧
    (st.sent = 0 → summary st = none) ∧
    (∀ s : Summary, summary st = some s →
      1 ≤ st.sent ∧ (st.recv = 0 → s.rtt = none) ∧ (s.rtt ≠ none → 1 ≤ st.recv)) ∧
    (count ≤ 0 → summary st = none) ∧
    ((∀ ev ∈ evs, ev.sendOk = false) → summary st = none) := by
  obtain ⟨used, hst, hmem, hnil⟩ := runProbes_final be getpid count evs st hrun
  obtain ⟨e1, e2, -⟩ :=
    applyEvents_spec be getpid (toU16 (getpid &&& 0xFFFF)) used 1 LoopState.init
  rw [← hst] at e1 e2
  have i1 : LoopState.init.sent = 0 := rfl
  have i2 : LoopState.init.recv = 0 := rfl
  rw [i1, zero_add] at e1
  rw [i2, zero_add] at e2
  have h0 : 0 ≤ st.sent := by rw [e1]; exact Int.natCast_nonneg _
  have h1 : 0 ≤ st.recv := by rw [e2]; exact Int.natCast_nonneg _
  have hzero : st.sent = 0 → summary st = none := by
    intro h
    rw [summary, if_neg (by rw [h]; simp)]
  refine ⟨summaryChecked_eq st, h0, h1, hzero, ?_, ?_, ?_⟩
  · intro s hs
    by_cases hsent : st.sent ≠ 0
    · rw [summary, if_pos hsent] at hs
      have hs2 := (Option.some.inj hs).symm
      refine ⟨by omega, ?_, ?_⟩
      · intro hr
        rw [hs2]
        show (if st.recv ≠ 0 then _ else _) = _
        rw [if_neg (by rw [hr]; simp)]
      · intro hr
        by_contra hlt
        have hr0 : st.recv = 0 := by omega
        apply hr
        rw [hs2]
        show (if st.recv ≠ 0 then _ else _) = _
        rw [if_neg (by rw [hr0]; simp)]
    · rw [summary, if_neg hsent] at hs
      exact absurd hs (by simp)
  · intro hc
    apply hzero
    rw [e1, hnil hc]
    rfl
  · intro hall
    apply hzero
    have : used.countP ProbeEvent.sendOk = 0 := by
      rw [List.countP_eq_zero]
      intro ev hev
      rw [hall ev (hmem ev hev)]
      simp
    rw [e1, this]
    rfl

theorem summary_never_divides_by_zero_witness :
    ∃ st : LoopState,
      runProbes false 1234 2 [.sendFailed, .sendFailed] = some st ∧
      summaryChecked st = some (summary st) ∧ summary st = none :=
  ⟨_, runProbes_eq false 1234 2 [.sendFailed, .sendFailed] (by decide) (by decide)
      (by decide),
    (summary_never_divides_by_zero false 1234 2 [.sendFailed, .sendFailed] _
      (runProbes_eq false 1234 2 [.sendFailed, .sendFailed] (by decide) (by decide)
        (by decide))).1,
    (summary_never_divides_by_zero false 1234 2 [.sendFailed, .sendFailed] _
      (runProbes_eq false 1234 2 [.sendFailed, .sendFailed] (by decide) (by decide)
        (by decide))).2.2.2.2.2.2 (by decide)⟩

/-! ## The counters -/

theorem probeStep_counters (be : Bool) (getpid : Nat) (pid : U16) (seq : Int)
    (st : LoopState) (ev : ProbeEvent) :
    (probeStep be getpid pid seq st ev).recv =
        st.recv + (if replied be getpid pid seq ev = true then 1 else 0) ∧
    (probeStep be getpid pid seq st ev).sent =
        st.sent + (if ev.sendOk = true then 1 else 0) ∧
    (replied be getpid pid seq ev = true → ev.sendOk = true) := by
  by_cases h : replied be getpid pid seq ev = true
  · cases ev with
    | sendFailed => simp [replied] at h
    | recvFailed again => simp [replied] at h
    | received n buf rtt =>
      rw [probeStep_of_replied be getpid pid seq st n buf rtt h, if_pos h]
      exact ⟨rfl, rfl, fun _ => rfl⟩
  · rw [Bool.not_eq_true] at h
    rw [probeStep_of_not_replied be getpid pid seq st ev h, h]
    refine ⟨by simp, rfl, fun h2 => absurd h2 (by simp)⟩

theorem reachable_counters (be : Bool) (getpid : Nat) (pid : U16) (n : Nat)
    (st : LoopState) (h : Reachable be getpid pid n st) :
    0 ≤ st.recv ∧ st.recv ≤ st.sent ∧ st.sent ≤ n := by
  induction h with
  | init => exact ⟨le_refl _, le_refl _, le_refl _⟩
  | step seq ev _ ih =>
    obtain ⟨a, b, c⟩ := ih
    obtain ⟨e1, e2, e3⟩ := probeStep_counters be getpid pid seq _ ev
    rw [e1, e2]
    by_cases hr : replied be getpid pid seq ev = true
    · rw [if_pos hr, if_pos (e3 hr)]
      push_cast
      omega
    · rw [if_neg hr]
      push_cast
      split <;> omega

theorem lossPercent_range (st : LoopState) (h0 : 0 < st.sent) (h1 : 0 ≤ st.recv)
    (h2 : st.recv ≤ st.sent) (hfit : (st.sent - st.recv) * 100 ≤ 2147483647) :
    0 ≤ lossPercent st ∧ lossPercent st ≤ 100 := by
  unfold lossPercent
  rw [wrapInt32_of_range (st.sent - st.recv) (by omega) (by omega),
    wrapInt32_of_range _ (by omega) hfit, Int.tdiv_eq_ediv (by omega) (by omega)]
  constructor
  · exact Int.ediv_nonneg (by omega) (by omega)
  · apply Int.ediv_le_of_le_mul h0
    omega

/-- C17 (as amended). In every state reachable from the initial state by `n` probe steps,
`0 ≤ recv ≤ sent ≤ n`; a step adds 1 to `recv` when its reply matched and leaves `recv`
as it was otherwise; and whenever the summary is produced and `(sent - recv) * 100` fits
an `int`, the loss it reports lies between 0 and 100 inclusive. -/
theorem counter_invariant (be : Bool) (getpid : Nat) (pid : U16) (n : Nat)
    (st : LoopState) (h : Reachable be getpid pid n st) :
    0 ≤ st.recv ∧ st.recv ≤ st.sent ∧ st.sent ≤ n ∧
    (∀ (seq : Int) (ev : ProbeEvent),
      (probeStep be getpid pid seq st ev).recv =
        st.recv + (if replied be getpid pid seq ev = true then 1 else 0)) ∧
    (∀ s : Summary, summary st = some s → (st.sent - st.recv) * 100 ≤ 2147483647 →
      0 ≤ s.loss ∧ s.loss ≤ 100) := by
  obtain ⟨a, b, c⟩ := reachable_counters be getpid pid n st h
  refine ⟨a, b, c, fun seq ev => (probeStep_counters be getpid pid seq st ev).1, ?_⟩
  intro s hs hfit
  by_cases hsent : st.sent ≠ 0
  · rw [summary, if_pos hsent] at hs
    rw [← Option.some.inj hs]
    exact lossPercent_range st (by omega) a b hfit
  · rw [summary, if_neg hsent] at hs
    exact absurd hs (by simp)

theorem counter_invariant_witness :
    0 ≤ (probeStep false 1234 1234 1 LoopState.init (.recvFailed true)).recv ∧
    (probeStep false 1234 1234 1 LoopState.init (.recvFailed true)).recv ≤
      (probeStep false 1234 1234 1 LoopState.init (.recvFailed true)).sent ∧
    (probeStep false 1234 1234 1 LoopState.init (.recvFailed true)).sent ≤ ((0 + 1 : Nat) : Int) ∧
    (∀ (seq : Int) (ev : ProbeEvent),
      (probeStep false 1234 1234 seq
          (probeStep false 1234 1234 1 LoopState.init (.recvFailed true)) ev).recv =
        (probeStep false 1234 1234 1 LoopState.init (.recvFailed true)).recv +
          (if replied false 1234 1234 seq ev = true then 1 else 0)) ∧
    (∀ s : Summary,
      summary (probeStep false 1234 1234 1 LoopState.init (.recvFailed true)) = some s →
      ((probeStep false 1234 1234 1 LoopState.init (.recvFailed true)).sent -
        (probeStep false 1234 1234 1 LoopState.init (.recvFailed true)).recv) * 100
          ≤ 2147483647 →
      0 ≤ s.loss ∧ s.loss ≤ 100) :=
  counter_invariant false 1234 1234 (0 + 1)
    (probeStep false 1234 1234 1 LoopState.init (.recvFailed true))
    (Reachable.step 1 (.recvFailed true) Reachable.init)

theorem reachable_applyEvents (be : Bool) (getpid : Nat) (pid : U16)
    (evs : List ProbeEvent) :
    ∀ (seq : Int) (n : Nat) (st : LoopState), Reachable be getpid pid n st →
      Reachable be getpid pid (n + evs.length) (applyEvents be getpid pid evs seq st) := by
  induction evs with
  | nil => intro seq n st h; exact h
  | cons ev rest ih =>
    intro seq n st h
    have := ih (seq + 1) (n + 1) _ (Reachable.step seq ev h)
    rw [List.length_cons, applyEvents]
    rw [Nat.add_assoc, Nat.add_comm 1] at this
    exact this

/-- C17, counterexample. The state reached by 21474837 probe steps that all time out has
`sent = 21474837` and `recv = 0`; the summary is produced and the loss it reports is
-99, below 0. -/
theorem loss_out_of_range :
    ∃ st : LoopState,
      Reachable false 1234 (toU16 (1234 &&& 0xFFFF)) 21474837 st ∧
      st.sent = 21474837 ∧ st.recv = 0 ∧
      (summary st).map Summary.loss = some (-99) := by
  have hreach := reachable_applyEvents false 1234 (toU16 (1234 &&& 0xFFFF))
    (List.replicate 21474837 (.recvFailed true)) 1 0 LoopState.init Reachable.init
  rw [List.length_replicate, Nat.zero_add] at hreach
  obtain ⟨e1, e2, -⟩ := applyEvents_spec false 1234 (toU16 (1234 &&& 0xFFFF))
    (List.replicate 21474837 (.recvFailed true)) 1 LoopState.init
  rw [repliedRtts_replicate_recvFailed] at e2
  rw [List.countP_replicate] at e1
  have i1 : LoopState.init.sent = 0 := rfl
  have i2 : LoopState.init.recv = 0 := rfl
  have hs : (applyEvents false 1234 (toU16 (1234 &&& 0xFFFF))
      (List.replicate 21474837 (.recvFailed true)) 1 LoopState.init).sent = 21474837 := by
    rw [e1, i1]
    simp only [ProbeEvent.sendOk, if_true, zero_add]
    rfl
  have hr : (applyEvents false 1234 (toU16 (1234 &&& 0xFFFF))
      (List.replicate 21474837 (.recvFailed true)) 1 LoopState.init).recv = 0 := by
    rw [e2, i2]
    rfl
  refine ⟨_, hreach, hs, hr, ?_⟩
  have hs0 : (applyEvents false 1234 (toU16 (1234 &&& 0xFFFF))
      (List.replicate 21474837 (.recvFailed true)) 1 LoopState.init).sent ≠ 0 := by
    rw [hs]; decide
  rw [summary, if_pos hs0]
  simp only [Option.map_some', lossPercent, hs, hr]
  decide

/-! ## Identifier and sequence of the requests -/

theorem probeStep_probes (be : Bool) (getpid : Nat) (pid : U16) (seq : Int)
    (st : LoopState) (ev : ProbeEvent) :
    (probeStep be getpid pid seq st ev).probes =
      st.probes ++ [ICMP.new be getpid pid (intToU16 seq)] := by
  by_cases h : replied be getpid pid seq ev = true
  · cases ev with
    | sendFailed => simp [replied] at h
    | recvFailed again => simp [replied] at h
    | received n buf rtt => rw [probeStep_of_replied be getpid pid seq st n buf rtt h]
  · rw [Bool.not_eq_true] at h
    rw [probeStep_of_not_replied be getpid pid seq st ev h]

/-- The requests a run of iterations builds: one per iteration, for the successive values
of the loop variable. -/
theorem applyEvents_probes (be : Bool) (getpid : Nat) (pid : U16) (evs : List ProbeEvent) :
    ∀ (seq : Int) (st : LoopState),
      (applyEvents be getpid pid evs seq st).probes =
        st.probes ++ (List.range evs.length).map
          (fun i : Nat => ICMP.new be getpid pid (intToU16 (seq + (i : Int)))) := by
  induction evs with
  | nil => intro seq st; simp [applyEvents]
  | cons ev rest ih =>
    intro seq st
    have e1 : ∀ i : Nat, seq + 1 + (i : Int) = seq + ((Nat.succ i : Nat) : Int) := by
      intro i; push_cast; ring
    have e0 : seq + ((0 : Nat) : Int) = seq := by simp
    rw [applyEvents, ih, probeStep_probes, List.append_assoc, List.length_cons,
      List.range_succ_eq_map, List.map_cons, List.map_map, e0, List.singleton_append]
    simp only [e1, Function.comp_def]

theorem getId_session (be : Bool) (getpid : Nat) (seq : U16) :
    (ICMP.new be getpid (toU16 (getpid &&& 0xFFFF)) seq).getId be =
      toU16 (getpid &&& 0xFFFF) := by
  rw [new_getId]
  split
  · rfl
  · rfl

theorem intToU16_val (i : Nat) : (intToU16 (1 + (i : Int))).val = (i + 1) % 65536 := by
  unfold intToU16
  rw [toU16_val]
  omega

/-- The requests built by a whole run of `main`. -/
theorem runProbes_probes (be : Bool) (getpid : Nat) (count : Int) (evs : List ProbeEvent)
    (hc : count < 2147483647) (hlen : (evs.length : Int) = count) :
    ∃ st : LoopState, runProbes be getpid count evs = some st ∧
      st.probes = (List.range evs.length).map
        (fun i : Nat =>
          ICMP.new be getpid (toU16 (getpid &&& 0xFFFF)) (intToU16 (1 + (i : Int)))) := by
  refine ⟨_, runProbes_eq be getpid count evs (by omega) (by omega) hlen, ?_⟩
  rw [applyEvents_probes]
  rfl

theorem probe_at (be : Bool) (getpid : Nat) (n i : Nat) (p : ICMP)
    (h : ((List.range n).map
        (fun i : Nat =>
          ICMP.new be getpid (toU16 (getpid &&& 0xFFFF)) (intToU16 (1 + (i : Int)))))[i]?
      = some p) :
    i < n ∧ p = ICMP.new be getpid (toU16 (getpid &&& 0xFFFF)) (intToU16 (1 + (i : Int))) := by
  rw [List.getElem?_map] at h
  by_cases hi : i < n
  · rw [List.getElem?_range hi] at h
    exact ⟨hi, (Option.some.inj h).symm⟩
  · rw [List.getElem?_eq_none (by rw [List.length_range]; omega)] at h
    exact absurd h (by simp)

/-- C14 (as amended). For every `count` below the largest `int`, the requests built by the
probe loop are `count` in number and all carry the identifier `getpid() & 0xFFFF`; the
`i`-th of them carries the sequence `i mod 65536`; and for `count ≤ 65535` the `i`-th
carries the sequence `i`, starting at 1, and `getSeq` of each later request is greater
than that of every earlier one. -/
theorem identifier_sequence_discipline (be : Bool) (getpid : Nat) (count : Int)
    (evs : List ProbeEvent) (hc : count < 2147483647)
    (hlen : (evs.length : Int) = count) :
    ∃ st : LoopState, runProbes be getpid count evs = some st ∧
      st.probes.length = evs.length ∧
      (∀ p ∈ st.probes, p.getId be = toU16 (getpid &&& 0xFFFF)) ∧
      (∀ i : Nat, i < evs.length →
        ∃ p : ICMP, st.probes[i]? = some p ∧ (p.getSeq be).val = (i + 1) % 65536) ∧
      (count ≤ 65535 →
        (∀ i : Nat, i < evs.length →
          ∃ p : ICMP, st.probes[i]? = some p ∧ (p.getSeq be).val = i + 1) ∧
        (∀ (i j : Nat) (p q : ICMP), i < j →
          st.probes[i]? = some p → st.probes[j]? = some q →
          p.getSeq be < q.getSeq be)) := by
  obtain ⟨st, hrun, hp⟩ := runProbes_probes be getpid count evs hc hlen
  have hidx : ∀ i : Nat, i < evs.length →
      st.probes[i]? = some
        (ICMP.new be getpid (toU16 (getpid &&& 0xFFFF)) (intToU16 (1 + (i : Int)))) := by
    intro i hi
    rw [hp, List.getElem?_map, List.getElem?_range hi]
    rfl
  have hseq : ∀ i : Nat,
      ((ICMP.new be getpid (toU16 (getpid &&& 0xFFFF)) (intToU16 (1 + (i : Int)))).getSeq
        be).val = (i + 1) % 65536 := by
    intro i
    rw [new_getSeq, intToU16_val]
  refine ⟨st, hrun, ?_, ?_, ?_, ?_⟩
  · rw [hp, List.length_map, List.length_range]
  · intro p hpm
    rw [hp, List.mem_map] at hpm
    obtain ⟨i, -, rfl⟩ := hpm
    exact getId_session be getpid _
  · intro i hi
    exact ⟨_, hidx i hi, hseq i⟩
  · intro h65
    refine ⟨?_, ?_⟩
    · intro i hi
      refine ⟨_, hidx i hi, ?_⟩
      rw [hseq i]
      exact Nat.mod_eq_of_lt (by omega)
    · intro i j p q hij hpi hqj
      rw [hp] at hpi hqj
      obtain ⟨hi, rfl⟩ := probe_at be getpid _ i p hpi
      obtain ⟨hj, rfl⟩ := probe_at be getpid _ j q hqj
      rw [Fin.lt_def, hseq i, hseq j, Nat.mod_eq_of_lt (by omega),
        Nat.mod_eq_of_lt (by omega)]
      omega

theorem identifier_sequence_discipline_witness :
    ∃ st : LoopState,
      runProbes false 1234 3
        [.sendFailed, .recvFailed true, .received 84 (replyBuf 1234 3) 2] = some st ∧
      st.probes.length =
        [ProbeEvent.sendFailed, .recvFailed true, .received 84 (replyBuf 1234 3) 2].length ∧
      (∀ p ∈ st.probes, p.getId false = toU16 (1234 &&& 0xFFFF)) ∧
      (∀ i : Nat,
        i < [ProbeEvent.sendFailed, .recvFailed true,
          .received 84 (replyBuf 1234 3) 2].length →
        ∃ p : ICMP, st.probes[i]? = some p ∧ (p.getSeq false).val = (i + 1) % 65536) ∧
      ((3 : Int) ≤ 65535 →
        (∀ i : Nat,
          i < [ProbeEvent.sendFailed, .recvFailed true,
            .received 84 (replyBuf 1234 3) 2].length →
          ∃ p : ICMP, st.probes[i]? = some p ∧ (p.getSeq false).val = i + 1) ∧
        (∀ (i j : Nat) (p q : ICMP), i < j →
          st.probes[i]? = some p → st.probes[j]? = some q →
          p.getSeq false < q.getSeq false)) :=
  identifier_sequence_discipline false 1234 3
    [.sendFailed, .recvFailed true, .received 84 (replyBuf 1234 3) 2]
    (by decide) (by decide)

/-- C14, counterexample. With `count = 65536` the request of the last probe, the 65536th,
carries the sequence 0, not 65536, and its `getSeq` is less than that of the probe before
it, which is 65535. -/
theorem sequence_wraps :
    ∃ st : LoopState,
      runProbes false 1234 65536 (List.replicate 65536 (.recvFailed true)) = some st ∧
      (st.probes[65534]?).map (ICMP.getSeq false) = some 65535 ∧
      (st.probes[65535]?).map (ICMP.getSeq false) = some 0 := by
  obtain ⟨st, hrun, hp⟩ := runProbes_probes false 1234 65536
    (List.replicate 65536 (.recvFailed true)) (by decide)
    (by rw [List.length_replicate]; rfl)
  rw [List.length_replicate] at hp
  refine ⟨st, hrun, ?_, ?_⟩
  · rw [hp, List.getElem?_map, List.getElem?_range (by decide)]
    simp only [Option.map_some', new_getSeq]
    rfl
  · rw [hp, List.getElem?_map, List.getElem?_range (by decide)]
    simp only [Option.map_some', new_getSeq]
    rfl

/-! ## The command line -/

/-- Without `-c`, a vector of the program name and a host is refused. -/
theorem parseArgs_host_only (atoi : String → Int) (program h : String) :
    parseArgs atoi [program, h] = Except.error 1 := rfl

/-- With `-c n` before a non-empty host, the host and the count `atoi(n)` are accepted. -/
theorem parseArgs_count_host (atoi : String → Int) (program n h : String) (hh : h ≠ "") :
    parseArgs atoi [program, "-c", n, h] = Except.ok (atoi n, h) := by
  simp [parseArgs, parseLoop, hh]

/-- A count given after the host is accepted as well. -/
theorem parseArgs_host_count (atoi : String → Int) (program n h : String) (hh : h ≠ "")
    (hc : h ≠ "-c") :
    parseArgs atoi [program, h, "-c", n] = Except.ok (atoi n, h) := by
  simp [parseArgs, parseLoop, hh, hc]

/-- Vectors without a host argument are refused with status 1. -/
theorem parseArgs_no_host (atoi : String → Int) (program n : String) :
    parseArgs atoi [program] = Except.error 1 ∧
    parseArgs atoi [program, "-c"] = Except.error 1 ∧
    parseArgs atoi [program, "-c", n] = Except.error 1 := by
  refine ⟨rfl, rfl, ?_⟩
  simp [parseArgs, parseLoop]

/-- C12, at the failing input. The vector of the program name and a host, with no `-c`, is
refused with exit status 1 by the test `argc < 3`, whatever `atoi` does; the same host is
accepted once `-c 4` is given. -/
theorem host_without_count_refused (atoi : String → Int) :
    parseArgs atoi ["ping", "example.com"] = Except.error 1 ∧
    parseArgs atoi ["ping", "-c", "4", "example.com"] =
      Except.ok (atoi "4", "example.com") := by
  refine ⟨rfl, ?_⟩
  simp [parseArgs, parseLoop]
end Ping
